import Mathlib

/-!
Shallow embedding of the game-logic core of `totito.py` (tic-tac-toe with a
minimax computer player).

The board is a list of 9 cells; a cell is `none` (empty), `some Player.X`
(the human) or `some Player.O` (the computer), exactly as in the source,
where a cell is `None`, `"X"` or `"O"`.  Python's `math.inf` / `-math.inf`
are modelled by `⊤` / `⊥` of the extended integers `WithBot (WithTop ℤ)`;
all scores the code actually produces are plain integers.

The search functions mutate the board in place and undo every mark before
returning, so their functional reading passes `t.set i (some p)` to the
recursive call and continues with the unchanged `t`.  Recursion is by an
explicit gas argument that is always instantiated with the exact number of
empty cells (`(celdas_vacias t).length`), which is precisely the recursion
depth of the source; the gas-exhausted branch is unreachable under that
instantiation.  A second, state-threading version (`minimaxS`) keeps the
mutated board explicit in order to state the restoration (frame) property.
-/

set_option maxHeartbeats 4000000
set_option maxRecDepth 10000

inductive Player where
  | X
  | O
deriving DecidableEq

abbrev Cell := Option Player

abbrev Board := List Cell

/-- The 8 winning index triples: 3 rows, 3 columns, 2 diagonals, in the
source's order. -/
def COMBINACIONES_GANADORAS : List (List Nat) :=
  [[0, 1, 2], [3, 4, 5], [6, 7, 8],
   [0, 3, 6], [1, 4, 7], [2, 5, 8],
   [0, 4, 8], [2, 4, 6]]

/-- The `for linea in COMBINACIONES_GANADORAS` loop of `verificar_ganador`:
returns the first line whose three cells are occupied and identical, with
its occupant. -/
def ganador_en (t : Board) : List (List Nat) → Option (Player × List Nat)
  | [] => none
  | linea :: resto =>
    let a := linea.getD 0 0
    let b := linea.getD 1 0
    let c := linea.getD 2 0
    match t.getD a none with
    | some p =>
      if t.getD b none = some p ∧ t.getD c none = some p then some (p, linea)
      else ganador_en t resto
    | none => ganador_en t resto

/-- The three shapes of the value returned by `verificar_ganador`:
`(símbolo, línea)`, `("empate", [])`, `(None, None)`. -/
inductive Resultado where
  | gana (p : Player) (linea : List Nat)
  | empate
  | sigue
deriving DecidableEq

/-- `verificar_ganador(tablero)`. -/
def verificar_ganador (t : Board) : Resultado :=
  match ganador_en t COMBINACIONES_GANADORAS with
  | some (p, linea) => Resultado.gana p linea
  | none =>
    if t.all (fun c => c.isSome) then Resultado.empate else Resultado.sigue

/-- `celdas_vacias(tablero)`: the indices whose cell is falsy (`None`),
in increasing order, exactly as `enumerate` yields them. -/
def celdas_vacias (t : Board) : List Nat :=
  (List.range t.length).filter (fun i => (t.getD i none).isNone)

/-- Extended integers: the score domain of the search (`math.inf` is `⊤`,
`-math.inf` is `⊥`). -/
abbrev Score := WithBot (WithTop ℤ)

/-- The maximizing `for i in vacias` loop of `minimax`: fold that keeps the
running maximum `mejor`, raises `alfa`, and breaks when `beta <= alfa`.
`f i alfa beta` is the recursive evaluation of cell `i`. -/
def maxLoop (f : Nat → Score → Score → Score) (beta : Score) :
    List Nat → Score → Score → Score
  | [], _, mejor => mejor
  | i :: resto, alfa, mejor =>
    let puntaje := f i alfa beta
    let mejor' := max mejor puntaje
    let alfa' := max alfa mejor'
    if beta ≤ alfa' then mejor' else maxLoop f beta resto alfa' mejor'

/-- The minimizing loop of `minimax`: keeps the running minimum, lowers
`beta`, breaks when `beta <= alfa`. -/
def minLoop (f : Nat → Score → Score → Score) (alfa : Score) :
    List Nat → Score → Score → Score
  | [], _, mejor => mejor
  | i :: resto, beta, mejor =>
    let puntaje := f i alfa beta
    let mejor' := min mejor puntaje
    let beta' := min beta mejor'
    if beta' ≤ alfa then mejor' else minLoop f alfa resto beta' mejor'

/-- `minimax(tablero, es_ia, profundidad, alfa, beta)`, functional reading:
the recursive call receives the board with the provisional mark placed
(`tablero[i] = simbolo`) and the loop continues from the restored board
(`tablero[i] = None`).  `gas` is the recursion budget; it is always used
with `gas = (celdas_vacias t).length`, under which the `0` branch with a
nonempty cell list is unreachable. -/
def minimaxG : Nat → Board → Bool → ℤ → Score → Score → Score
  | gas, t, es_ia, profundidad, alfa, beta =>
    match verificar_ganador t with
    | Resultado.gana Player.O _ => ((10 - profundidad : ℤ) : Score)
    | Resultado.gana Player.X _ => ((profundidad - 10 : ℤ) : Score)
    | Resultado.empate => ((0 : ℤ) : Score)
    | Resultado.sigue =>
      match celdas_vacias t with
      | [] => ((0 : ℤ) : Score)
      | i :: resto =>
        match gas with
        | 0 => ((0 : ℤ) : Score)
        | g + 1 =>
          if es_ia then
            maxLoop
              (fun j a b =>
                minimaxG g (t.set j (some Player.O)) false (profundidad + 1) a b)
              beta (i :: resto) alfa ⊥
          else
            minLoop
              (fun j a b =>
                minimaxG g (t.set j (some Player.X)) true (profundidad + 1) a b)
              alfa (i :: resto) beta ⊤

/-- `minimax` at its exact recursion depth. -/
def minimax (t : Board) (es_ia : Bool) (profundidad : ℤ) (alfa beta : Score) :
    Score :=
  minimaxG (celdas_vacias t).length t es_ia profundidad alfa beta

/-- The `for i in celdas_vacias(tablero)` loop of `mejor_jugada`: keeps the
first cell whose score strictly exceeds the best seen (`puntaje > mejor_puntaje`).
`f i` is the minimax score of playing `i`. -/
def mjLoop (f : Nat → Score) : List Nat → Score → Int → Int
  | [], _, movimiento => movimiento
  | i :: resto, mejor_puntaje, movimiento =>
    let puntaje := f i
    if mejor_puntaje < puntaje then mjLoop f resto puntaje (i : Int)
    else mjLoop f resto mejor_puntaje movimiento

/-- Score of the computer provisionally playing cell `i`:
`minimax(tablero con "O" en i, False, 0, -inf, inf)`. -/
def puntaje_opcion (t : Board) (i : Nat) : Score :=
  minimax (t.set i (some Player.O)) false 0 ⊥ ⊤

/-- `mejor_jugada(tablero)`: index of the best cell, `-1` if none is empty. -/
def mejor_jugada (t : Board) : Int :=
  mjLoop (puntaje_opcion t) (celdas_vacias t) ⊥ (-1)

/-- The three difficulty strings `"Fácil"`, `"Normal"`, `"Difícil"`; the
source's final `else` branch catches exactly `"Difícil"`. -/
inductive Dificultad where
  | Facil
  | Normal
  | Dificil
deriving DecidableEq

/-- `jugada_ia(tablero, dificultad)`.  The two random draws are explicit
inputs: `azar` is the value of `random.random()` (a real in `[0,1)`,
modelled as a rational) and `eleccion` selects the element of `vacias`
returned by `random.choice` (any natural, reduced mod the length, so the
support is exactly the empty-cell list). -/
def jugada_ia (t : Board) (dificultad : Dificultad) (azar : ℚ) (eleccion : Nat) :
    Int :=
  match celdas_vacias t with
  | [] => -1
  | v0 :: vresto =>
    let vacias := v0 :: vresto
    let rand : Int := (vacias.getD (eleccion % vacias.length) 0 : Nat)
    match dificultad with
    | Dificultad.Facil =>
      if azar < 9 / 10 then rand else mejor_jugada t
    | Dificultad.Normal =>
      if azar < 1 / 2 then rand else mejor_jugada t
    | Dificultad.Dificil => mejor_jugada t

/-- Modelled from the spec: the unpruned exhaustive maximizing loop — the
same recursion with the break-on-cutoff removed. -/
def npMaxLoop (f : Nat → Score) : List Nat → Score → Score
  | [], mejor => mejor
  | i :: resto, mejor => npMaxLoop f resto (max mejor (f i))

/-- Modelled from the spec: the unpruned exhaustive minimizing loop. -/
def npMinLoop (f : Nat → Score) : List Nat → Score → Score
  | [], mejor => mejor
  | i :: resto, mejor => npMinLoop f resto (min mejor (f i))

/-- Modelled from the spec: `minimax` with the break-on-cutoff removed
(`alfa`/`beta` then have no effect and are dropped). -/
def minimaxNPG : Nat → Board → Bool → ℤ → Score
  | gas, t, es_ia, profundidad =>
    match verificar_ganador t with
    | Resultado.gana Player.O _ => ((10 - profundidad : ℤ) : Score)
    | Resultado.gana Player.X _ => ((profundidad - 10 : ℤ) : Score)
    | Resultado.empate => ((0 : ℤ) : Score)
    | Resultado.sigue =>
      match celdas_vacias t with
      | [] => ((0 : ℤ) : Score)
      | i :: resto =>
        match gas with
        | 0 => ((0 : ℤ) : Score)
        | g + 1 =>
          if es_ia then
            npMaxLoop
              (fun j => minimaxNPG g (t.set j (some Player.O)) false (profundidad + 1))
              (i :: resto) ⊥
          else
            npMinLoop
              (fun j => minimaxNPG g (t.set j (some Player.X)) true (profundidad + 1))
              (i :: resto) ⊤

/-- Unpruned minimax at its exact recursion depth. -/
def minimax_sin_poda (t : Board) (es_ia : Bool) (profundidad : ℤ) : Score :=
  minimaxNPG (celdas_vacias t).length t es_ia profundidad

/-- Modelled from the spec: the best-move driver over the unpruned search. -/
def mejor_jugada_sin_poda (t : Board) : Int :=
  mjLoop (fun i => minimax_sin_poda (t.set i (some Player.O)) false 0)
    (celdas_vacias t) ⊥ (-1)

/-- State-threading maximizing loop: places the mark (`tablero[i] = "O"`),
runs the recursive search on the mutated board, undoes the mark
(`tablero[i] = None`) — also on the early `break` exit — and passes the
resulting board on. -/
def maxLoopS (f : Board → Score → Score → Score × Board) (beta : Score) :
    Board → List Nat → Score → Score → Score × Board
  | t, [], _, mejor => (mejor, t)
  | t, i :: resto, alfa, mejor =>
    let r := f (t.set i (some Player.O)) alfa beta
    let t' := r.2.set i none
    let mejor' := max mejor r.1
    let alfa' := max alfa mejor'
    if beta ≤ alfa' then (mejor', t')
    else maxLoopS f beta t' resto alfa' mejor'

/-- State-threading minimizing loop (`tablero[i] = "X"` / undo). -/
def minLoopS (f : Board → Score → Score → Score × Board) (alfa : Score) :
    Board → List Nat → Score → Score → Score × Board
  | t, [], _, mejor => (mejor, t)
  | t, i :: resto, beta, mejor =>
    let r := f (t.set i (some Player.X)) alfa beta
    let t' := r.2.set i none
    let mejor' := min mejor r.1
    let beta' := min beta mejor'
    if beta' ≤ alfa then (mejor', t')
    else minLoopS f alfa t' resto beta' mejor'

/-- `minimax` with the in-place board mutation kept explicit: returns the
score together with the board as the call leaves it. -/
def minimaxS : Nat → Board → Bool → ℤ → Score → Score → Score × Board
  | gas, t, es_ia, profundidad, alfa, beta =>
    match verificar_ganador t with
    | Resultado.gana Player.O _ => (((10 - profundidad : ℤ) : Score), t)
    | Resultado.gana Player.X _ => (((profundidad - 10 : ℤ) : Score), t)
    | Resultado.empate => (((0 : ℤ) : Score), t)
    | Resultado.sigue =>
      match celdas_vacias t with
      | [] => (((0 : ℤ) : Score), t)
      | i :: resto =>
        match gas with
        | 0 => (((0 : ℤ) : Score), t)
        | g + 1 =>
          if es_ia then
            maxLoopS
              (fun b a bt => minimaxS g b false (profundidad + 1) a bt)
              beta t (i :: resto) alfa ⊥
          else
            minLoopS
              (fun b a bt => minimaxS g b true (profundidad + 1) a bt)
              alfa t (i :: resto) beta ⊤

/-- State-threading `mejor_jugada` loop: place `"O"`, search, undo. -/
def mjLoopS (f : Board → Score × Board) : Board → List Nat → Score → Int → Int × Board
  | t, [], _, movimiento => (movimiento, t)
  | t, i :: resto, mejor_puntaje, movimiento =>
    let r := f (t.set i (some Player.O))
    let t' := r.2.set i none
    if mejor_puntaje < r.1 then mjLoopS f t' resto r.1 (i : Int)
    else mjLoopS f t' resto mejor_puntaje movimiento

/-- `mejor_jugada` with the board mutation kept explicit. -/
def mejor_jugadaS (t : Board) : Int × Board :=
  mjLoopS (fun b => minimaxS (celdas_vacias t).length b false 0 ⊥ ⊤)
    t (celdas_vacias t) ⊥ (-1)

/-- The empty starting board (`[None] * 9`). -/
def tablero_vacio : Board := List.replicate 9 (none : Cell)

/-- Alternating play from board `t`: the human plays any empty cell, the
computer always plays `mejor_jugada`; `true` iff every reachable terminal
position, as classified by `verificar_ganador`, is a computer win or a
draw (an `X` win — or exhausted fuel — yields `false`).  Fuel `9` covers
every game from the empty board. -/
def ia_no_pierde : Nat → Board → Bool → Bool
  | fuel, t, turno_humano =>
    match verificar_ganador t with
    | Resultado.gana Player.X _ => false
    | Resultado.gana Player.O _ => true
    | Resultado.empate => true
    | Resultado.sigue =>
      match fuel with
      | 0 => false
      | f + 1 =>
        if turno_humano then
          (celdas_vacias t).all
            (fun i => ia_no_pierde f (t.set i (some Player.X)) false)
        else ia_no_pierde f (t.set (mejor_jugada t).toNat (some Player.O)) true

/-- A line all of whose three cells are occupied and identical. -/
def linea_completa (t : Board) (l : List Nat) : Bool :=
  (t.getD (l.getD 0 0) none).isSome &&
  (t.getD (l.getD 0 0) none == t.getD (l.getD 1 0) none) &&
  (t.getD (l.getD 1 0) none == t.getD (l.getD 2 0) none)

/-- Some winning line is complete on the board. -/
def hay_linea (t : Board) : Bool :=
  COMBINACIONES_GANADORAS.any (linea_completa t)

/-- Every cell is occupied. -/
def tablero_lleno (t : Board) : Bool := t.all (fun c => c.isSome)

/-- Line `l` is fully occupied by player `p`. -/
def gana_linea (t : Board) (l : List Nat) (p : Player) : Bool :=
  l.all (fun j => t.getD j none == some p)

/-- Modelled from the spec: the terminal-scoring table — computer win
`10 - profundidad`, human win `profundidad - 10`, draw `0`, nothing for a
game still in progress. -/
def puntaje_terminal (r : Resultado) (profundidad : ℤ) : Option Score :=
  match r with
  | Resultado.gana Player.O _ => some ((10 - profundidad : ℤ) : Score)
  | Resultado.gana Player.X _ => some ((profundidad - 10 : ℤ) : Score)
  | Resultado.empate => some ((0 : ℤ) : Score)
  | Resultado.sigue => none

/-!
### Kernel-friendly mirror of the search on bitmask boards

For concrete evaluation the board is mirrored by two 9-bit masks (`sx` for
the human's cells, `so` for the computer's); `mascara` is the abstraction
map.  The mirror is proved equal to the list-board embedding cell for cell
(`minimaxR_eq` below), and recursion is written with bare `Nat.rec` /
`List.rec` so the kernel can evaluate it.
-/

/-- Table with bit `m` set exactly when the 9-bit cell mask `m` covers one
of the 8 winning lines (checked against the line scan in
`hayLineaBit_eq`). -/
def WINS : Nat := 13407807929942597099574013255132872028739945207506855185984536220990031079651139828398970461379756263750237762468915789768244935419011274038663501414695040

/-- One-step table lookup for a complete line in the mask `m`. -/
def hayLineaBit (m : Nat) : Bool := (WINS >>> m) &&& 1 == 1

/-- The line scan of `verificar_ganador` read on the two masks: for each
line in order, a cell occupied by the human is tested first, exactly as
`tablero[a]` is inspected first in the source. -/
def ganadorBits (sx so : Nat) : List (List Nat) → Option Player
  | [] => none
  | linea :: resto =>
    let a := linea.getD 0 0
    let b := linea.getD 1 0
    let c := linea.getD 2 0
    if sx.testBit a && sx.testBit b && sx.testBit c then some Player.X
    else if so.testBit a && so.testBit b && so.testBit c then some Player.O
    else ganadorBits sx so resto

/-- Mask `m` covers all three cells of the line. -/
def cubre (m : Nat) (l : List Nat) : Bool :=
  m.testBit (l.getD 0 0) && m.testBit (l.getD 1 0) && m.testBit (l.getD 2 0)

/-- The same scan with the eight lines unrolled (definitionally equal to
`ganadorBits` on `COMBINACIONES_GANADORAS`). -/
def ganadorU (sx so : Nat) : Option Player :=
  if sx.testBit 0 && sx.testBit 1 && sx.testBit 2 then some Player.X
  else if so.testBit 0 && so.testBit 1 && so.testBit 2 then some Player.O
  else if sx.testBit 3 && sx.testBit 4 && sx.testBit 5 then some Player.X
  else if so.testBit 3 && so.testBit 4 && so.testBit 5 then some Player.O
  else if sx.testBit 6 && sx.testBit 7 && sx.testBit 8 then some Player.X
  else if so.testBit 6 && so.testBit 7 && so.testBit 8 then some Player.O
  else if sx.testBit 0 && sx.testBit 3 && sx.testBit 6 then some Player.X
  else if so.testBit 0 && so.testBit 3 && so.testBit 6 then some Player.O
  else if sx.testBit 1 && sx.testBit 4 && sx.testBit 7 then some Player.X
  else if so.testBit 1 && so.testBit 4 && so.testBit 7 then some Player.O
  else if sx.testBit 2 && sx.testBit 5 && sx.testBit 8 then some Player.X
  else if so.testBit 2 && so.testBit 5 && so.testBit 8 then some Player.O
  else if sx.testBit 0 && sx.testBit 4 && sx.testBit 8 then some Player.X
  else if so.testBit 0 && so.testBit 4 && so.testBit 8 then some Player.O
  else if sx.testBit 2 && sx.testBit 4 && sx.testBit 6 then some Player.X
  else if so.testBit 2 && so.testBit 4 && so.testBit 6 then some Player.O
  else none

/-- Winner check gated by the table: almost every position has no line at
all and is answered by two lookups. -/
def rapidoGanador (sx so : Nat) : Option Player :=
  if hayLineaBit sx || hayLineaBit so then ganadorU sx so else none

/-- Mask of the cells occupied by `p`, little-endian in the cell index. -/
def mascara : Board → Player → Nat
  | [], _ => 0
  | c :: resto, p => 2 * mascara resto p + (if c = some p then 1 else 0)

/-- The nine cell indices. -/
def CELDAS : List Nat := [0, 1, 2, 3, 4, 5, 6, 7, 8]

/-- Empty cells of an occupancy mask. -/
def vaciasR (e : Nat) : List Nat := CELDAS.filter (fun j => ! e.testBit j)

/-- Comparison on `Score` by cases (`⊥` is `none`, `⊤` is `some none`),
equal to `≤` (`sle_iff`) but evaluated by the kernel in a few steps. -/
def sle : Score → Score → Bool
  | none, _ => true
  | some _, none => false
  | some none, some none => true
  | some none, some (some _) => false
  | some (some _), some none => true
  | some (some a), some (some b) => a ≤ b

/-- `max` on `Score` through `sle`. -/
def smax (a b : Score) : Score := if sle a b then b else a

/-- `min` on `Score` through `sle`. -/
def smin (a b : Score) : Score := if sle a b then a else b

/-- Body of the mirrored maximizing loop: skip occupied cells of `e`,
otherwise the `maxLoop` step with `smax`/`sle`. -/
def maxStep (f : Nat → Score → Score → Score) (beta : Score) (e : Nat)
    (i : Nat) (rec : Score → Score → Score) (alfa mejor : Score) : Score :=
  if e.testBit i then rec alfa mejor
  else
    let puntaje := f i alfa beta
    let mejor' := smax mejor puntaje
    let alfa' := smax alfa mejor'
    if sle beta alfa' then mejor' else rec alfa' mejor'

/-- Mirrored maximizing loop over a cell list by bare `List.rec`. -/
def maxLoopR (f : Nat → Score → Score → Score) (beta : Score) (e : Nat)
    (l : List Nat) : Score → Score → Score :=
  List.rec (motive := fun _ => Score → Score → Score)
    (fun _ mejor => mejor) (fun i _ rec => maxStep f beta e i rec) l

/-- Body of the mirrored minimizing loop. -/
def minStep (f : Nat → Score → Score → Score) (alfa : Score) (e : Nat)
    (i : Nat) (rec : Score → Score → Score) (beta mejor : Score) : Score :=
  if e.testBit i then rec beta mejor
  else
    let puntaje := f i alfa beta
    let mejor' := smin mejor puntaje
    let beta' := smin beta mejor'
    if sle beta' alfa then mejor' else rec beta' mejor'

/-- Mirrored minimizing loop over a cell list by bare `List.rec`. -/
def minLoopR (f : Nat → Score → Score → Score) (alfa : Score) (e : Nat)
    (l : List Nat) : Score → Score → Score :=
  List.rec (motive := fun _ => Score → Score → Score)
    (fun _ mejor => mejor) (fun i _ rec => minStep f alfa e i rec) l

/-- Gas-exhausted base of the mirror (winner checks, then `0`), matching
`minimaxG` at gas `0`. -/
def minimaxRB (sx so : Nat) (profundidad : ℤ) : Score :=
  match rapidoGanador sx so with
  | some Player.O => ((10 - profundidad : ℤ) : Score)
  | some Player.X => ((profundidad - 10 : ℤ) : Score)
  | none => ((0 : ℤ) : Score)

/-- Recursive body of the mirror: terminal checks, then the two loops with
the mover's bit added to the corresponding mask. -/
def minimaxRF (rec : Nat → Nat → Bool → ℤ → Score → Score → Score)
    (sx so : Nat) (es_ia : Bool) (profundidad : ℤ) (alfa beta : Score) :
    Score :=
  match rapidoGanador sx so with
  | some Player.O => ((10 - profundidad : ℤ) : Score)
  | some Player.X => ((profundidad - 10 : ℤ) : Score)
  | none =>
    if (sx ||| so) == 511 then ((0 : ℤ) : Score)
    else if es_ia then
      maxLoopR (fun j a b => rec sx (so + (1 <<< j)) false (profundidad + 1) a b)
        beta (sx ||| so) CELDAS alfa ⊥
    else
      minLoopR (fun j a b => rec (sx + (1 <<< j)) so true (profundidad + 1) a b)
        alfa (sx ||| so) CELDAS beta ⊤

/-- The mirrored search, recursion by bare `Nat.rec` on the gas. -/
def minimaxR : Nat → Nat → Nat → Bool → ℤ → Score → Score → Score :=
  Nat.rec (motive := fun _ => Nat → Nat → Bool → ℤ → Score → Score → Score)
    (fun sx so _ profundidad _ _ => minimaxRB sx so profundidad)
    (fun _ rec => minimaxRF rec)

/-- The mirrored best-move driver. -/
def mejor_jugadaR (sx so : Nat) : Int :=
  mjLoop
    (fun i =>
      minimaxR ((vaciasR (sx ||| so)).length - 1) sx (so + (1 <<< i)) false 0 ⊥ ⊤)
    (vaciasR (sx ||| so)) ⊥ (-1)

/-! ### Characterization of the winner scan -/

/-- A line is complete exactly when its three indexed cells hold one same
player. -/
theorem linea_completa_iff (t : Board) (l : List Nat) :
    linea_completa t l = true ↔
      ∃ p, t.getD (l.getD 0 0) none = some p ∧
        t.getD (l.getD 1 0) none = some p ∧
        t.getD (l.getD 2 0) none = some p := by
  simp only [linea_completa, Bool.and_eq_true, beq_iff_eq]
  constructor
  · intro h
    obtain ⟨⟨hs, he1⟩, he2⟩ := h
    obtain ⟨p, hp⟩ := Option.isSome_iff_exists.mp hs
    exact ⟨p, hp, by rw [← he1, hp], by rw [← he2, ← he1, hp]⟩
  · rintro ⟨p, h1, h2, h3⟩
    refine ⟨⟨?_, ?_⟩, ?_⟩
    · rw [h1]; rfl
    · rw [h1, h2]
    · rw [h2, h3]

/-- The line scan is a first-match search: it returns the first complete
line, in list order, paired with the player occupying it. -/
theorem ganador_en_eq_find (t : Board) :
    ∀ ls : List (List Nat),
      ganador_en t ls =
        match ls.find? (linea_completa t) with
        | none => none
        | some l =>
          match t.getD (l.getD 0 0) none with
          | some p => some (p, l)
          | none => none := by
  intro ls
  induction ls with
  | nil => rfl
  | cons l resto ih =>
    rcases ha : t.getD (l.getD 0 0) none with _ | p
    · have hlc : ¬ linea_completa t l = true := by
        intro h
        obtain ⟨p, hp, -, -⟩ := (linea_completa_iff t l).mp h
        rw [ha] at hp
        exact Option.noConfusion hp
      rw [List.find?_cons_of_neg _ hlc]
      simp only [ganador_en, ha]
      exact ih
    · by_cases hbc : t.getD (l.getD 1 0) none = some p ∧
        t.getD (l.getD 2 0) none = some p
      · have hlc : linea_completa t l = true :=
          (linea_completa_iff t l).mpr ⟨p, ha, hbc.1, hbc.2⟩
        rw [List.find?_cons_of_pos _ hlc]
        simp only [ganador_en, ha]
        rw [if_pos hbc]
      · have hlc : ¬ linea_completa t l = true := by
          intro h
          obtain ⟨q, hq1, hq2, hq3⟩ := (linea_completa_iff t l).mp h
          rw [ha] at hq1
          obtain rfl : p = q := Option.some.inj hq1
          exact hbc ⟨hq2, hq3⟩
        rw [List.find?_cons_of_neg _ hlc]
        simp only [ganador_en, ha, hbc, if_false]
        exact ih

/-- A complete three-cell line whose first cell holds `p` is fully `p`'s. -/
theorem gana_linea_of_completa (t : Board) (a b c : Nat) (p : Player)
    (h1 : linea_completa t [a, b, c] = true)
    (h2 : t.getD a none = some p) : gana_linea t [a, b, c] p = true := by
  obtain ⟨q, hq1, hq2, hq3⟩ := (linea_completa_iff t [a, b, c]).mp h1
  simp only [List.getD_cons_zero, List.getD_cons_succ] at hq1 hq2 hq3
  rw [h2] at hq1
  obtain rfl : p = q := Option.some.inj hq1
  simp only [gana_linea, List.all_eq_true]
  intro j hj
  simp only [List.mem_cons, List.not_mem_nil, or_false] at hj
  rcases hj with rfl | rfl | rfl
  · simpa using h2
  · simpa using hq2
  · simpa using hq3

/-- `verificar_ganador` reports a win exactly as the line scan does. -/
theorem verificar_gana_iff (t : Board) (p : Player) (l : List Nat) :
    verificar_ganador t = Resultado.gana p l ↔
      ganador_en t COMBINACIONES_GANADORAS = some (p, l) := by
  unfold verificar_ganador
  rcases h : ganador_en t COMBINACIONES_GANADORAS with _ | ⟨q, l'⟩
  · by_cases hall : t.all (fun c => c.isSome) = true <;> simp [hall]
  · simp

/-- The scan finds nothing exactly when no winning line is complete. -/
theorem ganador_en_none_iff (t : Board) :
    ganador_en t COMBINACIONES_GANADORAS = none ↔ hay_linea t = false := by
  rw [ganador_en_eq_find]
  rcases hf : COMBINACIONES_GANADORAS.find? (linea_completa t) with _ | l
  · simp only [true_iff]
    rw [show (hay_linea t = false) = (COMBINACIONES_GANADORAS.any (linea_completa t) = false) from rfl]
    rw [List.any_eq_false]
    intro l hl
    exact fun hc => (List.find?_eq_none.mp hf l hl) hc
  · have hc := List.find?_some hf
    obtain ⟨q, hq, -, -⟩ := (linea_completa_iff t l).mp hc
    have hay : hay_linea t = true :=
      List.any_eq_true.mpr ⟨l, List.mem_of_find?_eq_some hf, hc⟩
    simp only [List.getD_eq_getElem?_getD] at hq
    simp [hq, hay]

/-- Destructing a reported win: the line is the first complete one and the
player is its occupant. -/
theorem gana_destruct (t : Board) (p : Player) (l : List Nat)
    (h : verificar_ganador t = Resultado.gana p l) :
    COMBINACIONES_GANADORAS.find? (linea_completa t) = some l ∧
      t.getD (l.getD 0 0) none = some p := by
  have hg := (verificar_gana_iff t p l).mp h
  rw [ganador_en_eq_find] at hg
  rcases hf : COMBINACIONES_GANADORAS.find? (linea_completa t) with _ | l'
  · rw [hf] at hg
    exact Option.noConfusion hg
  · rw [hf] at hg
    rcases hd : t.getD (l'.getD 0 0) none with _ | q
    · simp only [hd] at hg
      exact Option.noConfusion hg
    · simp only [hd, Option.some.injEq, Prod.mk.injEq] at hg
      obtain ⟨rfl, rfl⟩ := hg
      exact ⟨rfl, hd⟩

/-- When some winning line is complete the evaluator reports a win. -/
theorem existe_gana_de_linea (t : Board) (h : hay_linea t = true) :
    ∃ p l, verificar_ganador t = Resultado.gana p l := by
  obtain ⟨l, hl, hc⟩ := List.any_eq_true.mp h
  rcases hf : COMBINACIONES_GANADORAS.find? (linea_completa t) with _ | l₀
  · exact absurd hc (List.find?_eq_none.mp hf l hl)
  · have hc₀ := List.find?_some hf
    obtain ⟨q, hq, -, -⟩ := (linea_completa_iff t l₀).mp hc₀
    refine ⟨q, l₀, (verificar_gana_iff t q l₀).mpr ?_⟩
    rw [ganador_en_eq_find, hf]
    simp only [List.getD_eq_getElem?_getD] at hq
    simp [hq]

/-- Draw report: no complete line and a full board. -/
theorem verificar_empate_iff (t : Board) :
    verificar_ganador t = Resultado.empate ↔
      hay_linea t = false ∧ tablero_lleno t = true := by
  unfold verificar_ganador
  rcases h : ganador_en t COMBINACIONES_GANADORAS with _ | ⟨q, l⟩
  · have hnl : hay_linea t = false := (ganador_en_none_iff t).mp h
    by_cases hall : t.all (fun c => c.isSome) = true <;>
      simp [hall, hnl, tablero_lleno]
  · have hay : hay_linea t = true := by
      rcases hb : hay_linea t with _ | _
      · have h0 := (ganador_en_none_iff t).mpr hb
        rw [h0] at h
        exact Option.noConfusion h
      · rfl
    simp [hay]

/-- In-progress report: no complete line and at least one empty cell. -/
theorem verificar_sigue_iff (t : Board) :
    verificar_ganador t = Resultado.sigue ↔
      hay_linea t = false ∧ tablero_lleno t = false := by
  unfold verificar_ganador
  rcases h : ganador_en t COMBINACIONES_GANADORAS with _ | ⟨q, l⟩
  · have hnl : hay_linea t = false := (ganador_en_none_iff t).mp h
    by_cases hall : t.all (fun c => c.isSome) = true <;>
      simp [hall, hnl, tablero_lleno]
  · have hay : hay_linea t = true := by
      rcases hb : hay_linea t with _ | _
      · have h0 := (ganador_en_none_iff t).mpr hb
        rw [h0] at h
        exact Option.noConfusion h
      · rfl
    simp [hay]

/-- C2: for every 9-cell board, `verificar_ganador` returns a winning pair
`(p, l)` only for `l` one of the 8 fixed triples fully occupied by `p`;
it reports a win whenever a complete line exists; it reports a draw exactly
when no line is complete and all cells are occupied; and it reports
in-progress exactly when no line is complete and some cell is empty.  (The
embedding is a pure function of the board, matching the source, which only
reads `tablero`.) -/
theorem evaluador_correcto (t : Board) (_hlen : t.length = 9) :
    (∀ p l, verificar_ganador t = Resultado.gana p l →
        l ∈ COMBINACIONES_GANADORAS ∧ gana_linea t l p = true)
    ∧ (hay_linea t = true → ∃ p l, verificar_ganador t = Resultado.gana p l)
    ∧ (verificar_ganador t = Resultado.empate ↔
        hay_linea t = false ∧ tablero_lleno t = true)
    ∧ (verificar_ganador t = Resultado.sigue ↔
        hay_linea t = false ∧ tablero_lleno t = false) := by
  refine ⟨?_, existe_gana_de_linea t, verificar_empate_iff t, verificar_sigue_iff t⟩
  intro p l h
  obtain ⟨hf, hd⟩ := gana_destruct t p l h
  have hmem := List.mem_of_find?_eq_some hf
  have hcomp := List.find?_some hf
  refine ⟨hmem, ?_⟩
  have hshape : ∃ a b c, l = [a, b, c] := by
    simp only [COMBINACIONES_GANADORAS, List.mem_cons, List.not_mem_nil,
      or_false] at hmem
    rcases hmem with rfl | rfl | rfl | rfl | rfl | rfl | rfl | rfl <;>
      exact ⟨_, _, _, rfl⟩
  obtain ⟨a, b, c, rfl⟩ := hshape
  exact gana_linea_of_completa t a b c p hcomp (by simpa using hd)

/-- Witness for C2 at the empty board. -/
theorem evaluador_correcto_testigo :
    (∀ p l, verificar_ganador tablero_vacio = Resultado.gana p l →
        l ∈ COMBINACIONES_GANADORAS ∧ gana_linea tablero_vacio l p = true)
    ∧ (hay_linea tablero_vacio = true →
        ∃ p l, verificar_ganador tablero_vacio = Resultado.gana p l)
    ∧ (verificar_ganador tablero_vacio = Resultado.empate ↔
        hay_linea tablero_vacio = false ∧ tablero_lleno tablero_vacio = true)
    ∧ (verificar_ganador tablero_vacio = Resultado.sigue ↔
        hay_linea tablero_vacio = false ∧ tablero_lleno tablero_vacio = false) :=
  evaluador_correcto tablero_vacio (by decide)

/-- C10: the winning triples are scanned in the fixed order rows, columns,
diagonals, and a reported win carries the first complete triple in that
order, with its occupant; on a full board containing a complete line the
evaluator still reports a win (never a draw). -/
theorem verificar_primera_linea :
    COMBINACIONES_GANADORAS =
      [[0, 1, 2], [3, 4, 5], [6, 7, 8], [0, 3, 6], [1, 4, 7], [2, 5, 8],
       [0, 4, 8], [2, 4, 6]]
    ∧ (∀ t : Board, t.length = 9 → ∀ p l,
        verificar_ganador t = Resultado.gana p l →
          COMBINACIONES_GANADORAS.find? (linea_completa t) = some l ∧
          t.getD (l.getD 0 0) none = some p)
    ∧ (∀ t : Board, t.length = 9 → tablero_lleno t = true →
        hay_linea t = true →
          ∃ p l, verificar_ganador t = Resultado.gana p l) :=
  ⟨rfl, fun t _ p l h => gana_destruct t p l h,
    fun t _ _ h => existe_gana_de_linea t h⟩

/-- Witness for C10: a top-row X win and a full winning board. -/
theorem verificar_primera_linea_testigo :
    (COMBINACIONES_GANADORAS.find?
        (linea_completa [some Player.X, some Player.X, some Player.X,
          some Player.O, some Player.O, none, none, none, none]) =
        some [0, 1, 2] ∧
      List.getD [some Player.X, some Player.X, some Player.X, some Player.O,
        some Player.O, none, none, none, none] (List.getD [0, 1, 2] 0 0) none =
        some Player.X)
    ∧ ∃ p l, verificar_ganador [some Player.X, some Player.X, some Player.X,
        some Player.O, some Player.O, some Player.X, some Player.O,
        some Player.X, some Player.O] = Resultado.gana p l :=
  ⟨verificar_primera_linea.2.1
      [some Player.X, some Player.X, some Player.X, some Player.O,
        some Player.O, none, none, none, none] rfl Player.X [0, 1, 2]
      (by decide),
    verificar_primera_linea.2.2
      [some Player.X, some Player.X, some Player.X, some Player.O,
        some Player.O, some Player.X, some Player.O, some Player.X,
        some Player.O] rfl (by decide) (by decide)⟩

/-- C5: whenever the evaluator reports a terminal result, `minimax` returns
the terminal score of the spec's table — `10 - profundidad` for a computer
win, `profundidad - 10` for a human win, `0` for a draw — for every depth
and every pair of bounds; and in the in-progress branch an empty
empty-cell list also returns `0` (the source's `if not vacias` base case,
which is checked only after the winner cases). -/
theorem minimax_puntaje_terminal (t : Board) (es_ia : Bool) (profundidad : ℤ)
    (alfa beta : Score) :
    (∀ s, puntaje_terminal (verificar_ganador t) profundidad = some s →
        minimax t es_ia profundidad alfa beta = s)
    ∧ (verificar_ganador t = Resultado.sigue → celdas_vacias t = [] →
        minimax t es_ia profundidad alfa beta = ((0 : ℤ) : Score)) := by
  constructor
  · intro s hs
    unfold minimax
    rw [minimaxG]
    rcases hv : verificar_ganador t with ⟨p, l⟩ | _ | _
    · rcases p
      · rw [hv] at hs
        simp only [puntaje_terminal, Option.some.injEq] at hs
        exact hs
      · rw [hv] at hs
        simp only [puntaje_terminal, Option.some.injEq] at hs
        exact hs
    · rw [hv] at hs
      simp only [puntaje_terminal, Option.some.injEq] at hs
      exact hs
    · rw [hv] at hs
      exact Option.noConfusion hs
  · intro hv hvac
    unfold minimax
    rw [minimaxG, hv, hvac]

/-- Witness for C5: a completed top-row human win at depth 3 scores
`3 - 10 = -7`. -/
theorem minimax_puntaje_terminal_testigo :
    minimax [some Player.X, some Player.X, some Player.X, some Player.O,
      some Player.O, none, none, none, none] true 3 ⊥ ⊤ = ((-7 : ℤ) : Score) :=
  (minimax_puntaje_terminal _ true 3 ⊥ ⊤).1 _ (by decide)

/-- C8: with the hardest difficulty the modulator is exactly the optimal
search — for any board with an empty cell and any values of both random
draws, `jugada_ia` returns `mejor_jugada` without consulting them. -/
theorem jugada_ia_dificil (t : Board) (azar : ℚ) (eleccion : Nat)
    (h : celdas_vacias t ≠ []) :
    jugada_ia t Dificultad.Dificil azar eleccion = mejor_jugada t := by
  unfold jugada_ia
  rcases hv : celdas_vacias t with _ | ⟨v0, resto⟩
  · exact absurd hv h
  · rfl

/-- Witness for C8 at the empty board. -/
theorem jugada_ia_dificil_testigo :
    jugada_ia tablero_vacio Dificultad.Dificil 0 0 = mejor_jugada tablero_vacio :=
  jugada_ia_dificil tablero_vacio 0 0 (by decide)

/-! ### Scores are finite integers -/

/-- Membership in the empty-cell list. -/
theorem mem_celdas_vacias (t : Board) (j : Nat) :
    j ∈ celdas_vacias t ↔ j < t.length ∧ t.getD j none = none := by
  simp [celdas_vacias, List.mem_filter, List.mem_range,
    Option.isNone_iff_eq_none]

/-- The empty-cell list is strictly increasing. -/
theorem celdas_vacias_sorted (t : Board) :
    List.Pairwise (· < ·) (celdas_vacias t) :=
  List.Pairwise.sublist (List.filter_sublist _) (List.pairwise_lt_range _)

/-- An integer score is above `-inf`. -/
theorem bot_lt_entero (z : ℤ) : (⊥ : Score) < ((z : ℤ) : Score) :=
  WithBot.bot_lt_coe _

/-- An integer score is below `inf`. -/
theorem entero_lt_top (z : ℤ) : ((z : ℤ) : Score) < ⊤ :=
  WithBot.coe_lt_coe.mpr (WithTop.coe_lt_top z)

/-- The maximizing loop keeps scores strictly between the infinities as
long as every explored child does and the accumulator starts below `inf`
(`-inf` is allowed when at least one child is explored). -/
theorem maxLoop_acotado (f : Nat → Score → Score → Score) (beta : Score) :
    ∀ (l : List Nat) (alfa mejor : Score),
      (∀ i ∈ l, ∀ a b, ⊥ < f i a b ∧ f i a b < ⊤) →
      mejor < ⊤ → (⊥ < mejor ∨ l ≠ []) →
      ⊥ < maxLoop f beta l alfa mejor ∧ maxLoop f beta l alfa mejor < ⊤ := by
  intro l
  induction l with
  | nil =>
    intro alfa mejor hf hm h0
    rcases h0 with h0 | h0
    · exact ⟨h0, hm⟩
    · exact absurd rfl h0
  | cons i resto ih =>
    intro alfa mejor hf hm h0
    simp only [maxLoop]
    obtain ⟨hs1, hs2⟩ := hf i (List.mem_cons_self i resto) alfa beta
    by_cases hbr : beta ≤ max alfa (max mejor (f i alfa beta))
    · rw [if_pos hbr]
      exact ⟨lt_of_lt_of_le hs1 (le_max_right _ _), max_lt hm hs2⟩
    · rw [if_neg hbr]
      exact ih _ _ (fun j hj a b => hf j (List.mem_cons_of_mem _ hj) a b)
        (max_lt hm hs2) (Or.inl (lt_of_lt_of_le hs1 (le_max_right _ _)))

/-- Mirror bound for the minimizing loop. -/
theorem minLoop_acotado (f : Nat → Score → Score → Score) (alfa : Score) :
    ∀ (l : List Nat) (beta mejor : Score),
      (∀ i ∈ l, ∀ a b, ⊥ < f i a b ∧ f i a b < ⊤) →
      ⊥ < mejor → (mejor < ⊤ ∨ l ≠ []) →
      ⊥ < minLoop f alfa l beta mejor ∧ minLoop f alfa l beta mejor < ⊤ := by
  intro l
  induction l with
  | nil =>
    intro beta mejor hf hm h0
    rcases h0 with h0 | h0
    · exact ⟨hm, h0⟩
    · exact absurd rfl h0
  | cons i resto ih =>
    intro beta mejor hf hm h0
    simp only [minLoop]
    obtain ⟨hs1, hs2⟩ := hf i (List.mem_cons_self i resto) alfa beta
    by_cases hbr : min beta (min mejor (f i alfa beta)) ≤ alfa
    · rw [if_pos hbr]
      exact ⟨lt_min hm hs1, lt_of_le_of_lt (min_le_right _ _) hs2⟩
    · rw [if_neg hbr]
      exact ih _ _ (fun j hj a b => hf j (List.mem_cons_of_mem _ hj) a b)
        (lt_min hm hs1) (Or.inl (lt_of_le_of_lt (min_le_right _ _) hs2))

/-- Every value the search returns is a finite integer: strictly between
`-inf` and `inf`. -/
theorem minimaxG_acotado :
    ∀ (gas : Nat) (t : Board) (es_ia : Bool) (profundidad : ℤ)
      (alfa beta : Score),
      ⊥ < minimaxG gas t es_ia profundidad alfa beta ∧
        minimaxG gas t es_ia profundidad alfa beta < ⊤ := by
  intro gas
  induction gas with
  | zero =>
    intro t es_ia prof alfa beta
    rw [minimaxG]
    rcases hv : verificar_ganador t with ⟨p, l⟩ | _ | _
    · rcases p
      · exact ⟨bot_lt_entero _, entero_lt_top _⟩
      · exact ⟨bot_lt_entero _, entero_lt_top _⟩
    · exact ⟨bot_lt_entero _, entero_lt_top _⟩
    · rcases hvac : celdas_vacias t with _ | ⟨v0, resto⟩
      · exact ⟨bot_lt_entero _, entero_lt_top _⟩
      · exact ⟨bot_lt_entero _, entero_lt_top _⟩
  | succ g ih =>
    intro t es_ia prof alfa beta
    rw [minimaxG]
    rcases hv : verificar_ganador t with ⟨p, l⟩ | _ | _
    · rcases p
      · exact ⟨bot_lt_entero _, entero_lt_top _⟩
      · exact ⟨bot_lt_entero _, entero_lt_top _⟩
    · exact ⟨bot_lt_entero _, entero_lt_top _⟩
    · rcases hvac : celdas_vacias t with _ | ⟨v0, resto⟩
      · exact ⟨bot_lt_entero _, entero_lt_top _⟩
      · rcases es_ia
        · exact minLoop_acotado _ alfa (v0 :: resto) beta ⊤
            (fun i _ a b => ih (t.set i (some Player.X)) true (prof + 1) a b)
            (by decide) (Or.inr (List.cons_ne_nil v0 resto))
        · exact maxLoop_acotado _ beta (v0 :: resto) alfa ⊥
            (fun i _ a b => ih (t.set i (some Player.O)) false (prof + 1) a b)
            (by decide) (Or.inr (List.cons_ne_nil v0 resto))

/-- The score of any candidate move is a finite integer. -/
theorem puntaje_opcion_acotado (t : Board) (i : Nat) :
    ⊥ < puntaje_opcion t i ∧ puntaje_opcion t i < ⊤ :=
  minimaxG_acotado _ _ false 0 ⊥ ⊤

/-! ### The best-move loop keeps the first strict maximum -/

/-- Invariant of the `mejor_jugada` loop over a strictly increasing cell
list: either no cell beats the incoming best score and the incoming move is
returned, or the result is a cell of the list that strictly beats the
incoming score, is maximal among the list, and strictly beats every
lower-indexed cell of the list. -/
theorem mjLoop_go (f : Nat → Score) :
    ∀ l : List Nat, List.Pairwise (· < ·) l →
      ∀ (best : Score) (mov : Int),
        (mjLoop f l best mov = mov ∧ ∀ j ∈ l, f j ≤ best) ∨
        (∃ i ∈ l, mjLoop f l best mov = (i : Int) ∧ best < f i ∧
          (∀ j ∈ l, f j ≤ f i) ∧ ∀ j ∈ l, j < i → f j < f i) := by
  intro l
  induction l with
  | nil =>
    intro _ best mov
    exact Or.inl ⟨rfl, by simp⟩
  | cons i resto ih =>
    intro hsort best mov
    have hsort' : List.Pairwise (· < ·) resto := hsort.of_cons
    have hmenor : ∀ j ∈ resto, i < j := by
      intro j hj
      exact (List.pairwise_cons.mp hsort).1 j hj
    by_cases hb : best < f i
    · rcases ih hsort' (f i) (i : Int) with ⟨heq, hall⟩ | ⟨k, hk, heq, hlt, hmax, hstr⟩
      · refine Or.inr ⟨i, List.mem_cons_self i resto, ?_, hb, ?_, ?_⟩
        · simp only [mjLoop, if_pos hb]
          exact heq
        · intro j hj
          rcases List.mem_cons.mp hj with rfl | hj
          · exact le_refl _
          · exact hall j hj
        · intro j hj hji
          rcases List.mem_cons.mp hj with rfl | hj
          · exact absurd hji (lt_irrefl j)
          · exact absurd hji (not_lt_of_gt (hmenor j hj))
      · refine Or.inr ⟨k, List.mem_cons_of_mem _ hk, ?_, lt_trans hb hlt, ?_, ?_⟩
        · simp only [mjLoop, if_pos hb]
          exact heq
        · intro j hj
          rcases List.mem_cons.mp hj with rfl | hj
          · exact le_of_lt hlt
          · exact hmax j hj
        · intro j hj hjk
          rcases List.mem_cons.mp hj with rfl | hj
          · exact hlt
          · exact hstr j hj hjk
    · rcases ih hsort' best mov with ⟨heq, hall⟩ | ⟨k, hk, heq, hlt, hmax, hstr⟩
      · refine Or.inl ⟨?_, ?_⟩
        · simp only [mjLoop, if_neg hb]
          exact heq
        · intro j hj
          rcases List.mem_cons.mp hj with rfl | hj
          · exact le_of_not_lt hb
          · exact hall j hj
      · refine Or.inr ⟨k, List.mem_cons_of_mem _ hk, ?_, hlt, ?_, ?_⟩
        · simp only [mjLoop, if_neg hb]
          exact heq
        · intro j hj
          rcases List.mem_cons.mp hj with rfl | hj
          · exact le_trans (le_of_not_lt hb) (le_of_lt hlt)
          · exact hmax j hj
        · intro j hj hjk
          rcases List.mem_cons.mp hj with rfl | hj
          · exact lt_of_le_of_lt (le_of_not_lt hb) hlt
          · exact hstr j hj hjk

/-- On a board with an empty cell, `mejor_jugada` returns an empty cell
that carries the first strict maximum of the candidate scores. -/
theorem mejor_jugada_caracterizada (t : Board) :
    (celdas_vacias t = [] ∧ mejor_jugada t = -1) ∨
    (∃ i ∈ celdas_vacias t, mejor_jugada t = (i : Int) ∧
      (∀ j ∈ celdas_vacias t, puntaje_opcion t j ≤ puntaje_opcion t i) ∧
      ∀ j ∈ celdas_vacias t, j < i → puntaje_opcion t j < puntaje_opcion t i) := by
  rcases hv : celdas_vacias t with _ | ⟨v0, resto⟩
  · left
    refine ⟨rfl, ?_⟩
    unfold mejor_jugada
    rw [hv]
    rfl
  · right
    have hsort : List.Pairwise (· < ·) (v0 :: resto) := by
      rw [← hv]
      exact celdas_vacias_sorted t
    rcases mjLoop_go (puntaje_opcion t) (v0 :: resto) hsort ⊥ (-1) with
      ⟨-, hall⟩ | ⟨i, hi, heq, -, hmax, hstr⟩
    · have := hall v0 (List.mem_cons_self v0 resto)
      exact absurd this (not_le_of_gt (puntaje_opcion_acotado t v0).1)
    · refine ⟨i, hi, ?_, hmax, hstr⟩
      unfold mejor_jugada
      rw [hv]
      exact heq

/-- Unfolding of `jugada_ia` on a board with empty cells. -/
theorem jugada_ia_eq (t : Board) (d : Dificultad) (azar : ℚ) (eleccion : Nat)
    (v0 : Nat) (resto : List Nat) (hv : celdas_vacias t = v0 :: resto) :
    jugada_ia t d azar eleccion =
      match d with
      | Dificultad.Facil =>
        if azar < 9 / 10 then
          (((v0 :: resto).getD (eleccion % (v0 :: resto).length) 0 : Nat) : Int)
        else mejor_jugada t
      | Dificultad.Normal =>
        if azar < 1 / 2 then
          (((v0 :: resto).getD (eleccion % (v0 :: resto).length) 0 : Nat) : Int)
        else mejor_jugada t
      | Dificultad.Dificil => mejor_jugada t := by
  unfold jugada_ia
  rw [hv]

/-- C9: on a full board both entry points return the sentinel `-1`; on a
board with an empty cell, whichever branch runs (the random one or the
minimax one, at every difficulty and for all random draws), the returned
index is a member of the empty-cell list. -/
theorem jugadas_en_celdas_vacias (t : Board) (d : Dificultad) (azar : ℚ)
    (eleccion : Nat) :
    (celdas_vacias t = [] ∧ mejor_jugada t = -1 ∧
      jugada_ia t d azar eleccion = -1)
    ∨ ((∃ i ∈ celdas_vacias t, mejor_jugada t = (i : Int)) ∧
        ∃ j ∈ celdas_vacias t, jugada_ia t d azar eleccion = (j : Int)) := by
  rcases hv : celdas_vacias t with _ | ⟨v0, resto⟩
  · left
    refine ⟨rfl, ?_, ?_⟩
    · unfold mejor_jugada
      rw [hv]
      rfl
    · unfold jugada_ia
      rw [hv]
  · right
    have hmj : ∃ i ∈ v0 :: resto, mejor_jugada t = (i : Int) := by
      rcases mejor_jugada_caracterizada t with ⟨h0, -⟩ | ⟨i, hi, heq, -, -⟩
      · rw [hv] at h0
        exact absurd h0 (List.cons_ne_nil v0 resto)
      · rw [hv] at hi
        exact ⟨i, hi, heq⟩
    refine ⟨hmj, ?_⟩
    have hlt : eleccion % (v0 :: resto).length < (v0 :: resto).length :=
      Nat.mod_lt _ (Nat.succ_pos resto.length)
    have hrand : ∃ j ∈ v0 :: resto,
        (((v0 :: resto).getD (eleccion % (v0 :: resto).length) 0 : Nat) : Int) =
          (j : Int) := by
      refine ⟨(v0 :: resto).getD (eleccion % (v0 :: resto).length) 0, ?_, rfl⟩
      rw [List.getD_eq_getElem _ _ hlt]
      exact List.getElem_mem hlt
    rw [jugada_ia_eq t d azar eleccion v0 resto hv]
    rcases d
    · by_cases hr : azar < 9 / 10
      · rw [if_pos hr]
        exact hrand
      · rw [if_neg hr]
        exact hmj
    · by_cases hr : azar < 1 / 2
      · rw [if_pos hr]
        exact hrand
      · rw [if_neg hr]
        exact hmj
    · exact hmj

/-! ### The search restores the board -/

/-- Clearing a cell that is already empty leaves the board unchanged. -/
theorem set_none_of_getD_none :
    ∀ (t : Board) (i : Nat), t.getD i none = none → t.set i none = t := by
  intro t
  induction t with
  | nil => intro i _; rfl
  | cons c ts ih =>
    intro i h
    rcases i with _ | i
    · simp only [List.getD_cons_zero] at h
      rw [h]
      rfl
    · simp only [List.getD_cons_succ] at h
      simp only [List.set_cons_succ]
      rw [ih i h]

/-- The state-threading maximizing loop hands back the board it received:
every provisional `"O"` is erased, also on the `break` exit. -/
theorem maxLoopS_restaura (f : Board → Score → Score → Score × Board)
    (beta : Score) (hf : ∀ b a bt, (f b a bt).2 = b) :
    ∀ (l : List Nat) (t : Board), (∀ j ∈ l, t.getD j none = none) →
      ∀ alfa mejor, (maxLoopS f beta t l alfa mejor).2 = t := by
  intro l
  induction l with
  | nil => intro t _ alfa mejor; rfl
  | cons i resto ih =>
    intro t h alfa mejor
    simp only [maxLoopS]
    have ht' : ((f (t.set i (some Player.O)) alfa beta).2).set i none = t := by
      rw [hf _ _ _, List.set_set]
      exact set_none_of_getD_none t i (h i (List.mem_cons_self i resto))
    by_cases hbr :
        beta ≤ max alfa (max mejor (f (t.set i (some Player.O)) alfa beta).1)
    · rw [if_pos hbr]
      exact ht'
    · rw [if_neg hbr, ht']
      exact ih t (fun j hj => h j (List.mem_cons_of_mem _ hj)) _ _

/-- Mirror restoration for the minimizing loop (provisional `"X"`). -/
theorem minLoopS_restaura (f : Board → Score → Score → Score × Board)
    (alfa : Score) (hf : ∀ b a bt, (f b a bt).2 = b) :
    ∀ (l : List Nat) (t : Board), (∀ j ∈ l, t.getD j none = none) →
      ∀ beta mejor, (minLoopS f alfa t l beta mejor).2 = t := by
  intro l
  induction l with
  | nil => intro t _ beta mejor; rfl
  | cons i resto ih =>
    intro t h beta mejor
    simp only [minLoopS]
    have ht' : ((f (t.set i (some Player.X)) alfa beta).2).set i none = t := by
      rw [hf _ _ _, List.set_set]
      exact set_none_of_getD_none t i (h i (List.mem_cons_self i resto))
    by_cases hbr :
        min beta (min mejor (f (t.set i (some Player.X)) alfa beta).1) ≤ alfa
    · rw [if_pos hbr]
      exact ht'
    · rw [if_neg hbr, ht']
      exact ih t (fun j hj => h j (List.mem_cons_of_mem _ hj)) _ _

/-- `minimaxS` returns the board exactly as it received it. -/
theorem minimaxS_restaura :
    ∀ (gas : Nat) (t : Board) (es_ia : Bool) (profundidad : ℤ)
      (alfa beta : Score), (minimaxS gas t es_ia profundidad alfa beta).2 = t := by
  intro gas
  induction gas with
  | zero =>
    intro t es_ia prof alfa beta
    rw [minimaxS]
    rcases hv : verificar_ganador t with ⟨p, l⟩ | _ | _
    · rcases p <;> rfl
    · rfl
    · rcases hvac : celdas_vacias t with _ | ⟨v0, resto⟩ <;> rfl
  | succ g ih =>
    intro t es_ia prof alfa beta
    rw [minimaxS]
    rcases hv : verificar_ganador t with ⟨p, l⟩ | _ | _
    · rcases p <;> rfl
    · rfl
    · rcases hvac : celdas_vacias t with _ | ⟨v0, resto⟩
      · rfl
      · have hvmem : ∀ j ∈ v0 :: resto, t.getD j none = none := by
          intro j hj
          rw [← hvac] at hj
          exact ((mem_celdas_vacias t j).mp hj).2
        rcases es_ia
        · exact minLoopS_restaura _ alfa
            (fun b a bt => ih b true (prof + 1) a bt) (v0 :: resto) t hvmem beta ⊤
        · exact maxLoopS_restaura _ beta
            (fun b a bt => ih b false (prof + 1) a bt) (v0 :: resto) t hvmem alfa ⊥

/-- The state-threading best-move loop also restores the board. -/
theorem mjLoopS_restaura (f : Board → Score × Board) (hf : ∀ b, (f b).2 = b) :
    ∀ (l : List Nat) (t : Board), (∀ j ∈ l, t.getD j none = none) →
      ∀ best mov, (mjLoopS f t l best mov).2 = t := by
  intro l
  induction l with
  | nil => intro t _ best mov; rfl
  | cons i resto ih =>
    intro t h best mov
    simp only [mjLoopS]
    have ht' : ((f (t.set i (some Player.O))).2).set i none = t := by
      rw [hf _, List.set_set]
      exact set_none_of_getD_none t i (h i (List.mem_cons_self i resto))
    by_cases hbr : best < (f (t.set i (some Player.O))).1
    · rw [if_pos hbr, ht']
      exact ih t (fun j hj => h j (List.mem_cons_of_mem _ hj)) _ _
    · rw [if_neg hbr, ht']
      exact ih t (fun j hj => h j (List.mem_cons_of_mem _ hj)) _ _

/-- C4: both search entry points leave the board element-for-element as it
was — every provisional mark placed during the search (including branches
cut short by the alpha-beta break) is undone before returning.  Stated on
the state-threading reading of the source, for every gas, board, turn,
depth and bounds. -/
theorem busqueda_restaura_tablero :
    (∀ (gas : Nat) (t : Board) (es_ia : Bool) (profundidad : ℤ)
        (alfa beta : Score),
        (minimaxS gas t es_ia profundidad alfa beta).2 = t)
    ∧ ∀ t : Board, (mejor_jugadaS t).2 = t := by
  refine ⟨minimaxS_restaura, ?_⟩
  intro t
  unfold mejor_jugadaS
  exact mjLoopS_restaura _
    (fun b => minimaxS_restaura (celdas_vacias t).length b false 0 ⊥ ⊤)
    (celdas_vacias t) t
    (fun j hj => ((mem_celdas_vacias t j).mp hj).2) ⊥ (-1)

/-! ### Pruning does not change the clamped value -/

/-- Clamping to `[alfa, beta]` is monotone. -/
theorem clamp_mono (a b x y : Score) (h : x ≤ y) :
    min b (max a x) ≤ min b (max a y) :=
  min_le_min (le_refl b) (max_le_max (le_refl a) h)

/-- Clamping distributes over `max`. -/
theorem clamp_max_hom (a b x y : Score) :
    min b (max a (max x y)) = max (min b (max a x)) (min b (max a y)) := by
  have h : max (max a x) (max a y) = max a (max x y) := by
    rw [max_max_max_comm, max_self]
  rw [← h, min_max_distrib_left]

/-- Clamping distributes over `min`. -/
theorem clamp_min_hom (a b x y : Score) :
    min b (max a (min x y)) = min (min b (max a x)) (min b (max a y)) := by
  have h : min (max a x) (max a y) = max a (min x y) :=
    (max_min_distrib_left a x y).symm
  rw [← h, min_min_min_comm, min_self]

/-- Every clamped value is at least `min b a`. -/
theorem clamp_ge_min (a b x : Score) : min b a ≤ min b (max a x) :=
  min_le_min (le_refl b) (le_max_left a x)

/-- When the minimizing break fires, the clamped running value collapses
to `min b a`. -/
theorem clamp_break_min (a b m : Score) (h : min b m ≤ a) :
    min b (max a m) = min b a := by
  rcases le_total b m with hbm | hbm
  · have hb : b ≤ a := by
      rw [min_eq_left hbm] at h
      exact h
    rw [min_eq_left (le_trans hb (le_max_left a m)), min_eq_left hb]
  · have hm : m ≤ a := by
      rw [min_eq_right hbm] at h
      exact h
    rw [max_eq_left hm]

/-- Pulling a `max` out of the unpruned maximizing fold. -/
theorem npMaxLoop_max (f : Nat → Score) :
    ∀ (l : List Nat) (a m : Score),
      npMaxLoop f l (max a m) = max a (npMaxLoop f l m) := by
  intro l
  induction l with
  | nil => intro a m; rfl
  | cons i resto ih =>
    intro a m
    simp only [npMaxLoop]
    rw [max_assoc, ih]

/-- The unpruned maximizing fold only grows its accumulator. -/
theorem le_npMaxLoop (f : Nat → Score) :
    ∀ (l : List Nat) (m : Score), m ≤ npMaxLoop f l m := by
  intro l
  induction l with
  | nil => intro m; exact le_refl m
  | cons i resto ih =>
    intro m
    simp only [npMaxLoop]
    exact le_trans (le_max_left m (f i)) (ih _)

/-- Pulling a `min` out of the unpruned minimizing fold. -/
theorem npMinLoop_min (f : Nat → Score) :
    ∀ (l : List Nat) (a m : Score),
      npMinLoop f l (min a m) = min a (npMinLoop f l m) := by
  intro l
  induction l with
  | nil => intro a m; rfl
  | cons i resto ih =>
    intro a m
    simp only [npMinLoop]
    rw [min_assoc, ih]

/-- The unpruned minimizing fold only shrinks its accumulator. -/
theorem npMinLoop_le (f : Nat → Score) :
    ∀ (l : List Nat) (m : Score), npMinLoop f l m ≤ m := by
  intro l
  induction l with
  | nil => intro m; exact le_refl m
  | cons i resto ih =>
    intro m
    simp only [npMinLoop]
    exact le_trans (ih _) (min_le_left m (f i))

/-- The pruned maximizing loop only grows its accumulator. -/
theorem le_maxLoop (f : Nat → Score → Score → Score) (beta : Score) :
    ∀ (l : List Nat) (alfa m : Score), m ≤ maxLoop f beta l alfa m := by
  intro l
  induction l with
  | nil => intro alfa m; exact le_refl m
  | cons i resto ih =>
    intro alfa m
    simp only [maxLoop]
    by_cases hbr : beta ≤ max alfa (max m (f i alfa beta))
    · rw [if_pos hbr]
      exact le_max_left m _
    · rw [if_neg hbr]
      exact le_trans (le_max_left m _) (ih _ _)

/-- The pruned minimizing loop only shrinks its accumulator. -/
theorem minLoop_le (f : Nat → Score → Score → Score) (alfa : Score) :
    ∀ (l : List Nat) (beta m : Score), minLoop f alfa l beta m ≤ m := by
  intro l
  induction l with
  | nil => intro beta m; exact le_refl m
  | cons i resto ih =>
    intro beta m
    simp only [minLoop]
    by_cases hbr : min beta (min m (f i alfa beta)) ≤ alfa
    · rw [if_pos hbr]
      exact min_le_left m _
    · rw [if_neg hbr]
      exact le_trans (ih _ _) (min_le_left m _)

/-- Knuth-Moore style invariant for the maximizing loop: the value clamped
to `[alfa, beta]` agrees with the clamped unpruned fold, provided each
explored child agrees under the same clamp. -/
theorem maxLoop_clamp (f : Nat → Score → Score → Score) (fnp : Nat → Score)
    (beta : Score) :
    ∀ l : List Nat,
      (∀ i ∈ l, ∀ a, min beta (max a (f i a beta)) = min beta (max a (fnp i))) →
      ∀ alfa mejor,
        min beta (max alfa (maxLoop f beta l alfa mejor)) =
          min beta (max alfa (npMaxLoop fnp l mejor)) := by
  intro l
  induction l with
  | nil => intro _ alfa mejor; rfl
  | cons i resto ih =>
    intro hf alfa mejor
    have hchild := hf i (List.mem_cons_self i resto) alfa
    simp only [maxLoop, npMaxLoop]
    by_cases hbr : beta ≤ max alfa (max mejor (f i alfa beta))
    · rw [if_pos hbr]
      have hL : min beta (max alfa (max mejor (f i alfa beta))) = beta :=
        min_eq_left hbr
      rw [hL]
      have hub : min beta (max alfa (npMaxLoop fnp resto (max mejor (fnp i)))) ≤
          beta := min_le_left _ _
      have h2 : min beta (max alfa (max mejor (fnp i))) = beta := by
        rw [clamp_max_hom, ← hchild, ← clamp_max_hom]
        exact hL
      have hlb : beta ≤
          min beta (max alfa (npMaxLoop fnp resto (max mejor (fnp i)))) := by
        have h1 := clamp_mono alfa beta _ _ (le_npMaxLoop fnp resto (max mejor (fnp i)))
        rw [h2] at h1
        exact h1
      exact (le_antisymm hub hlb).symm
    · rw [if_neg hbr]
      have htrans : ∀ x : Score, max mejor (f i alfa beta) ≤ x →
          max (max alfa (max mejor (f i alfa beta))) x = max alfa x := by
        intro x hx
        rw [max_assoc, max_eq_right hx]
      have hih := ih (fun j hj a => hf j (List.mem_cons_of_mem _ hj) a)
        (max alfa (max mejor (f i alfa beta))) (max mejor (f i alfa beta))
      rw [htrans _ (le_maxLoop f beta resto _ _),
        htrans _ (le_npMaxLoop fnp resto _)] at hih
      rw [hih, max_comm mejor (f i alfa beta), npMaxLoop_max,
        max_comm mejor (fnp i), npMaxLoop_max, clamp_max_hom, clamp_max_hom,
        hchild]

/-- Mirror invariant for the minimizing loop. -/
theorem minLoop_clamp (f : Nat → Score → Score → Score) (fnp : Nat → Score)
    (alfa : Score) :
    ∀ l : List Nat,
      (∀ i ∈ l, ∀ b, min b (max alfa (f i alfa b)) = min b (max alfa (fnp i))) →
      ∀ beta mejor,
        min beta (max alfa (minLoop f alfa l beta mejor)) =
          min beta (max alfa (npMinLoop fnp l mejor)) := by
  intro l
  induction l with
  | nil => intro _ beta mejor; rfl
  | cons i resto ih =>
    intro hf beta mejor
    have hchild := hf i (List.mem_cons_self i resto) beta
    simp only [minLoop, npMinLoop]
    by_cases hbr : min beta (min mejor (f i alfa beta)) ≤ alfa
    · rw [if_pos hbr]
      have hL : min beta (max alfa (min mejor (f i alfa beta))) = min beta alfa :=
        clamp_break_min alfa beta _ hbr
      rw [hL]
      have h2 : min beta (max alfa (min mejor (fnp i))) = min beta alfa := by
        rw [clamp_min_hom, ← hchild, ← clamp_min_hom]
        exact hL
      have hub : min beta (max alfa (npMinLoop fnp resto (min mejor (fnp i)))) ≤
          min beta alfa := by
        have h1 := clamp_mono alfa beta _ _ (npMinLoop_le fnp resto (min mejor (fnp i)))
        rw [h2] at h1
        exact h1
      exact (le_antisymm hub (clamp_ge_min alfa beta _)).symm
    · rw [if_neg hbr]
      push_neg at hbr
      obtain ⟨hab, ham⟩ := lt_min_iff.mp hbr
      have htrans : ∀ x : Score, x ≤ min mejor (f i alfa beta) →
          min (min beta (min mejor (f i alfa beta))) (max alfa x) =
            min beta (max alfa x) := by
        intro x hx
        rw [min_assoc]
        have hmx : max alfa x ≤ min mejor (f i alfa beta) :=
          max_le (le_of_lt ham) hx
        rw [min_eq_right hmx]
      have hih := ih (fun j hj b => hf j (List.mem_cons_of_mem _ hj) b)
        (min beta (min mejor (f i alfa beta))) (min mejor (f i alfa beta))
      rw [htrans _ (minLoop_le f alfa resto _ _),
        htrans _ (npMinLoop_le fnp resto _)] at hih
      rw [hih, min_comm mejor (f i alfa beta), npMinLoop_min,
        min_comm mejor (fnp i), npMinLoop_min, clamp_min_hom, clamp_min_hom,
        hchild]

/-- Alpha-beta returns the same value as the unpruned search up to clamping
to the `[alfa, beta]` window, for every gas, board, turn and depth. -/
theorem minimaxG_clamp :
    ∀ (gas : Nat) (t : Board) (es_ia : Bool) (profundidad : ℤ)
      (alfa beta : Score),
      min beta (max alfa (minimaxG gas t es_ia profundidad alfa beta)) =
        min beta (max alfa (minimaxNPG gas t es_ia profundidad)) := by
  intro gas
  induction gas with
  | zero =>
    intro t es_ia prof alfa beta
    rw [minimaxG, minimaxNPG]
  | succ g ih =>
    intro t es_ia prof alfa beta
    rw [minimaxG, minimaxNPG]
    rcases hv : verificar_ganador t with ⟨p, l⟩ | _ | _
    · rcases p <;> rfl
    · rfl
    · rcases hvac : celdas_vacias t with _ | ⟨v0, resto⟩
      · rfl
      · rcases es_ia
        · exact minLoop_clamp _ _ alfa (v0 :: resto)
            (fun i _ b => ih (t.set i (some Player.X)) true (prof + 1) alfa b)
            beta ⊤
        · exact maxLoop_clamp _ _ beta (v0 :: resto)
            (fun i _ a => ih (t.set i (some Player.O)) false (prof + 1) a beta)
            alfa ⊥

/-- The best-move loop only depends on the score function pointwise. -/
theorem mjLoop_congr (f g : Nat → Score) :
    ∀ l : List Nat, (∀ i ∈ l, f i = g i) →
      ∀ (best : Score) (mov : Int), mjLoop f l best mov = mjLoop g l best mov := by
  intro l
  induction l with
  | nil => intro _ best mov; rfl
  | cons i resto ih =>
    intro h best mov
    simp only [mjLoop]
    rw [h i (List.mem_cons_self i resto)]
    by_cases hbr : best < g i
    · rw [if_pos hbr, if_pos hbr]
      exact ih (fun j hj => h j (List.mem_cons_of_mem _ hj)) _ _
    · rw [if_neg hbr, if_neg hbr]
      exact ih (fun j hj => h j (List.mem_cons_of_mem _ hj)) _ _

/-- At the widest window alpha-beta equals the unpruned search exactly. -/
theorem minimaxG_sin_poda :
    ∀ (gas : Nat) (t : Board) (es_ia : Bool) (profundidad : ℤ),
      minimaxG gas t es_ia profundidad ⊥ ⊤ = minimaxNPG gas t es_ia profundidad := by
  intro gas t es_ia prof
  have h := minimaxG_clamp gas t es_ia prof ⊥ ⊤
  have e1 : ∀ x : Score, max ⊥ x = x := fun x => max_eq_right bot_le
  have e2 : ∀ x : Score, min ⊤ x = x := fun x => min_eq_right le_top
  rw [e1, e2, e1, e2] at h
  exact h

/-- C3: with the widest bounds (`alfa = -inf`, `beta = inf`) the alpha-beta
search returns exactly the same score as the unpruned exhaustive minimax
(the same recursion with the cutoff break removed), for every board, turn
and depth; consequently `mejor_jugada` coincides with the unpruned driver,
and it is deterministic — equal boards give equal moves. -/
theorem poda_no_cambia_resultado :
    (∀ (t : Board) (es_ia : Bool) (profundidad : ℤ),
        minimax t es_ia profundidad ⊥ ⊤ = minimax_sin_poda t es_ia profundidad)
    ∧ (∀ t : Board, mejor_jugada t = mejor_jugada_sin_poda t)
    ∧ ∀ t₁ t₂ : Board, t₁ = t₂ → mejor_jugada t₁ = mejor_jugada t₂ := by
  refine ⟨?_, ?_, fun t₁ t₂ h => by rw [h]⟩
  · intro t es_ia prof
    exact minimaxG_sin_poda _ t es_ia prof
  · intro t
    unfold mejor_jugada mejor_jugada_sin_poda
    apply mjLoop_congr
    intro i _
    unfold puntaje_opcion minimax minimax_sin_poda
    exact minimaxG_sin_poda _ _ false 0

/-- Witness for the determinism conjunct of C3 at a concrete board. -/
theorem poda_no_cambia_resultado_testigo :
    minimax tablero_vacio true 0 ⊥ ⊤ = minimax_sin_poda tablero_vacio true 0 ∧
      mejor_jugada tablero_vacio = mejor_jugada tablero_vacio :=
  ⟨poda_no_cambia_resultado.1 tablero_vacio true 0,
    poda_no_cambia_resultado.2.2 tablero_vacio tablero_vacio rfl⟩

/-! ### The bitmask mirror agrees with the board embedding -/

/-- The unrolled scan is the line scan on the literal line list. -/
theorem ganadorU_eq (sx so : Nat) :
    ganadorU sx so = ganadorBits sx so COMBINACIONES_GANADORAS := rfl

/-- Bit `j` of a player's mask is set exactly when cell `j` holds that
player. -/
theorem testBit_mascara :
    ∀ (t : Board) (p : Player) (j : Nat),
      Nat.testBit (mascara t p) j = true ↔ t.getD j none = some p := by
  intro t p
  induction t with
  | nil =>
    intro j
    simp [mascara, Nat.zero_testBit]
  | cons c resto ih =>
    intro j
    rcases j with _ | j
    · rw [List.getD_cons_zero]
      by_cases hc : c = some p
      · have h1 : (2 * mascara resto p + 1) % 2 = 1 := by omega
        simp [mascara, hc, Nat.testBit_zero, h1]
      · have h0 : (2 * mascara resto p + 0) % 2 = 0 := by omega
        simp [mascara, hc, Nat.testBit_zero, h0]
    · have hdiv :
          (2 * mascara resto p + (if c = some p then 1 else 0)) / 2 =
            mascara resto p := by
        by_cases hc : c = some p
        all_goals simp [hc]
        all_goals omega
      rw [List.getD_cons_succ,
        show mascara (c :: resto) p =
          2 * mascara resto p + (if c = some p then 1 else 0) from rfl,
        Nat.testBit_succ, hdiv]
      exact ih j

/-- A mask only uses as many bits as the board has cells. -/
theorem mascara_lt (t : Board) (p : Player) : mascara t p < 2 ^ t.length := by
  induction t with
  | nil => simp [mascara]
  | cons c resto ih =>
    have hb : (if c = some p then 1 else 0) ≤ 1 := by split <;> simp
    simp only [mascara, List.length_cons, pow_succ]
    omega

/-- Marking an empty cell for `p` adds the cell's bit to `p`'s mask. -/
theorem mascara_set_self :
    ∀ (t : Board) (j : Nat) (p : Player), j < t.length →
      t.getD j none = none →
      mascara (t.set j (some p)) p = mascara t p + (1 <<< j) := by
  intro t
  induction t with
  | nil =>
    intro j p hj _
    exact absurd hj (Nat.not_lt_zero j)
  | cons c resto ih =>
    intro j p hj hn
    rcases j with _ | j
    · rw [List.getD_cons_zero] at hn
      subst hn
      simp [mascara, Nat.one_shiftLeft]
    · rw [List.getD_cons_succ] at hn
      have hj' : j < resto.length := by
        simpa [List.length_cons] using hj
      rw [List.set_cons_succ,
        show mascara (c :: resto.set j (some p)) p =
          2 * mascara (resto.set j (some p)) p +
            (if c = some p then 1 else 0) from rfl,
        ih j p hj' hn,
        show mascara (c :: resto) p =
          2 * mascara resto p + (if c = some p then 1 else 0) from rfl,
        Nat.one_shiftLeft, Nat.one_shiftLeft]
      have : (2 : Nat) ^ (j + 1) = 2 * 2 ^ j := by
        rw [pow_succ]
        omega
      omega

/-- Marking an empty cell for `p` leaves the other player's mask alone. -/
theorem mascara_set_other :
    ∀ (t : Board) (j : Nat) (p q : Player), q ≠ p →
      t.getD j none = none →
      mascara (t.set j (some p)) q = mascara t q := by
  intro t
  induction t with
  | nil => intro j p q _ _; rfl
  | cons c resto ih =>
    intro j p q hpq hn
    rcases j with _ | j
    · rw [List.getD_cons_zero] at hn
      subst hn
      have hq : ¬ ((some p : Cell) = some q) := by
        intro h
        exact hpq (Option.some.inj h).symm
      simp [mascara, hq]
    · rw [List.getD_cons_succ] at hn
      rw [List.set_cons_succ,
        show mascara (c :: resto.set j (some p)) q =
          2 * mascara (resto.set j (some p)) q +
            (if c = some q then 1 else 0) from rfl,
        ih j p q hpq hn]
      rfl

/-- Bit version of `testBit_mascara`. -/
theorem testBit_mascara_eq (t : Board) (p : Player) (j : Nat) :
    Nat.testBit (mascara t p) j = decide (t.getD j none = some p) := by
  by_cases h : t.getD j none = some p
  · rw [(testBit_mascara t p j).mpr h]
    exact (decide_eq_true h).symm
  · rw [decide_eq_false h]
    exact Bool.eq_false_iff.mpr (fun hb => h ((testBit_mascara t p j).mp hb))

/-- One step of the mask scan, through `cubre`. -/
theorem ganadorBits_cons (sx so : Nat) (l : List Nat) (resto : List (List Nat)) :
    ganadorBits sx so (l :: resto) =
      if cubre sx l then some Player.X
      else if cubre so l then some Player.O
      else ganadorBits sx so resto := rfl

/-- The mask scan returns nothing exactly when no listed line is covered. -/
theorem ganadorBits_none_iff (sx so : Nat) :
    ∀ ls : List (List Nat),
      ganadorBits sx so ls = none ↔
        ∀ l ∈ ls, cubre sx l = false ∧ cubre so l = false := by
  intro ls
  induction ls with
  | nil => simp [ganadorBits]
  | cons l resto ih =>
    rw [ganadorBits_cons]
    by_cases hx : cubre sx l = true
    · simp [hx]
    · have hx' : cubre sx l = false := Bool.eq_false_iff.mpr hx
      by_cases ho : cubre so l = true
      · simp [hx', ho]
      · have ho' : cubre so l = false := Bool.eq_false_iff.mpr ho
        simp [hx', ho', ih]

/-- The wins table agrees with the mask scan on every 9-bit mask. -/
theorem hayLineaBit_eq (m : Nat) (hm : m < 512) :
    hayLineaBit m = (ganadorBits m 0 COMBINACIONES_GANADORAS).isSome := by
  have h : ∀ m' ∈ List.range 512,
      hayLineaBit m' = (ganadorBits m' 0 COMBINACIONES_GANADORAS).isSome := by
    decide
  exact h m (List.mem_range.mpr hm)

/-- A mask below the table's failing lookup covers no line. -/
theorem cubre_eq_false_of_hayLineaBit (m : Nat) (hm : m < 512)
    (h : hayLineaBit m = false) :
    ∀ l ∈ COMBINACIONES_GANADORAS, cubre m l = false := by
  have h0 : (ganadorBits m 0 COMBINACIONES_GANADORAS).isSome = false := by
    rw [← hayLineaBit_eq m hm]
    exact h
  have hnone : ganadorBits m 0 COMBINACIONES_GANADORAS = none :=
    Option.not_isSome_iff_eq_none.mp (by rw [h0]; exact Bool.false_ne_true)
  intro l hl
  exact ((ganadorBits_none_iff m 0 COMBINACIONES_GANADORAS).mp hnone l hl).1

/-- The gated winner check equals the mask scan on 9-bit masks. -/
theorem rapidoGanador_eq (sx so : Nat) (hx : sx < 512) (ho : so < 512) :
    rapidoGanador sx so = ganadorBits sx so COMBINACIONES_GANADORAS := by
  unfold rapidoGanador
  by_cases hg : (hayLineaBit sx || hayLineaBit so) = true
  · rw [if_pos hg, ganadorU_eq]
  · rw [if_neg hg]
    have hg' : hayLineaBit sx = false ∧ hayLineaBit so = false := by
      rcases Bool.or_eq_false_iff.mp (Bool.eq_false_iff.mpr hg) with ⟨h1, h2⟩
      exact ⟨h1, h2⟩
    symm
    rw [ganadorBits_none_iff]
    intro l hl
    exact ⟨cubre_eq_false_of_hayLineaBit sx hx hg'.1 l hl,
      cubre_eq_false_of_hayLineaBit so ho hg'.2 l hl⟩

/-- `cubre` on an occupancy mask reads the three board cells. -/
theorem cubre_mascara (t : Board) (p : Player) (l : List Nat) :
    cubre (mascara t p) l =
      (decide (t.getD (l.getD 0 0) none = some p) &&
       decide (t.getD (l.getD 1 0) none = some p) &&
       decide (t.getD (l.getD 2 0) none = some p)) := by
  unfold cubre
  rw [testBit_mascara_eq, testBit_mascara_eq, testBit_mascara_eq]

/-- The mask scan agrees with the board scan on any line list: it reports
exactly the winner (without the line). -/
theorem ganadorBits_mascara (t : Board) :
    ∀ ls : List (List Nat),
      ganadorBits (mascara t Player.X) (mascara t Player.O) ls =
        Option.map Prod.fst (ganador_en t ls) := by
  intro ls
  induction ls with
  | nil => rfl
  | cons l resto ih =>
    rw [ganadorBits_cons, cubre_mascara, cubre_mascara]
    rcases ha : t.getD (l.getD 0 0) none with _ | p
    · simp only [ganador_en, ha]
      exact ih
    · by_cases hbc : t.getD (l.getD 1 0) none = some p ∧
        t.getD (l.getD 2 0) none = some p
      · simp only [ganador_en, ha]
        rw [if_pos hbc, hbc.1, hbc.2]
        cases p <;> rfl
      · simp only [ganador_en, ha, hbc, if_false]
        cases p
        · rcases not_and_or.mp hbc with hb | hc
          · rw [decide_eq_false hb]
            simpa using ih
          · rw [decide_eq_false hc]
            simpa using ih
        · rcases not_and_or.mp hbc with hb | hc
          · rw [decide_eq_false hb]
            simpa using ih
          · rw [decide_eq_false hc]
            simpa using ih

/-- A bit of the union mask is an occupied cell. -/
theorem or_mascara_testBit (t : Board) (j : Nat) :
    (mascara t Player.X ||| mascara t Player.O).testBit j =
      (t.getD j none).isSome := by
  rw [Nat.testBit_or, testBit_mascara_eq, testBit_mascara_eq]
  rcases h : t.getD j none with _ | p
  · rfl
  · cases p <;> simp

/-- Every in-range cell of a full board is occupied. -/
theorem getD_isSome_of_lleno (t : Board) (h : tablero_lleno t = true) (j : Nat)
    (hj : j < t.length) : (t.getD j none).isSome = true := by
  rw [tablero_lleno, List.all_eq_true] at h
  rw [List.getD_eq_getElem?_getD, List.getElem?_eq_getElem hj]
  exact h _ (List.getElem_mem hj)

/-- On a 9-cell board the union mask is `511` exactly on a full board. -/
theorem mascara_or_eq_511_iff (t : Board) (hlen : t.length = 9) :
    mascara t Player.X ||| mascara t Player.O = 511 ↔
      tablero_lleno t = true := by
  have h511 : ∀ k ∈ List.range 9, Nat.testBit 511 k = true := by decide
  constructor
  · intro h
    rw [tablero_lleno, List.all_eq_true]
    intro c hc
    obtain ⟨j, hlt, rfl⟩ := List.mem_iff_getElem.mp hc
    have hbit := or_mascara_testBit t j
    rw [h, h511 j (List.mem_range.mpr (hlen ▸ hlt))] at hbit
    rw [List.getD_eq_getElem?_getD, List.getElem?_eq_getElem hlt] at hbit
    simpa using hbit.symm
  · intro h
    apply Nat.eq_of_testBit_eq
    intro j
    by_cases hj : j < 9
    · rw [or_mascara_testBit, h511 j (List.mem_range.mpr hj)]
      exact getD_isSome_of_lleno t h j (hlen ▸ hj)
    · push_neg at hj
      have hpow : (2 : Nat) ^ 9 ≤ 2 ^ j := Nat.pow_le_pow_right (by norm_num) hj
      have hx : Nat.testBit (mascara t Player.X) j = false :=
        Nat.testBit_lt_two_pow (lt_of_lt_of_le (hlen ▸ mascara_lt t Player.X) hpow)
      have ho : Nat.testBit (mascara t Player.O) j = false :=
        Nat.testBit_lt_two_pow (lt_of_lt_of_le (hlen ▸ mascara_lt t Player.O) hpow)
      have h5 : Nat.testBit 511 j = false :=
        Nat.testBit_lt_two_pow (lt_of_lt_of_le (by norm_num) hpow)
      rw [Nat.testBit_or, hx, ho, h5]
      rfl

/-- No empty cell exactly when the board is full. -/
theorem celdas_vacias_nil_iff (t : Board) :
    celdas_vacias t = [] ↔ tablero_lleno t = true := by
  unfold celdas_vacias tablero_lleno
  rw [List.filter_eq_nil_iff, List.all_eq_true]
  constructor
  · intro h c hc
    obtain ⟨j, hlt, rfl⟩ := List.mem_iff_getElem.mp hc
    have hj := h j (List.mem_range.mpr hlt)
    rw [List.getD_eq_getElem?_getD, List.getElem?_eq_getElem hlt] at hj
    exact Option.ne_none_iff_isSome.mp (by simpa using hj)
  · intro h j hj
    rw [List.mem_range] at hj
    intro hn
    have hs := getD_isSome_of_lleno t
      (by rw [tablero_lleno, List.all_eq_true]; exact h) j hj
    rw [Option.isNone_iff_eq_none] at hn
    rw [hn] at hs
    simp at hs

/-- On a 9-cell board the mask's empty-cell list is the board's. -/
theorem vaciasR_eq (t : Board) (hlen : t.length = 9) :
    vaciasR (mascara t Player.X ||| mascara t Player.O) = celdas_vacias t := by
  unfold vaciasR celdas_vacias
  rw [hlen, show List.range 9 = CELDAS from by decide]
  apply List.filter_congr
  intro j _
  rw [or_mascara_testBit]
  cases t.getD j none <;> rfl

/-- Marking an empty cell removes exactly that index from the empty-cell
list. -/
theorem celdas_vacias_set (t : Board) (j : Nat) (p : Player)
    (hj : j ∈ celdas_vacias t) :
    celdas_vacias (t.set j (some p)) = (celdas_vacias t).erase j := by
  have hnodup : (celdas_vacias t).Nodup := (List.nodup_range _).filter _
  rw [hnodup.erase_eq_filter j]
  unfold celdas_vacias
  rw [List.filter_filter, List.length_set]
  apply List.filter_congr
  intro i _
  by_cases hij : i = j
  · subst hij
    have hlt : i < t.length := by
      have := (List.mem_filter.mp hj).1
      exact List.mem_range.mp this
    rw [List.getD_eq_getElem?_getD, List.getElem?_set_self hlt]
    simp
  · rw [List.getD_eq_getElem?_getD, List.getElem?_set_ne (fun h => hij h.symm),
      ← List.getD_eq_getElem?_getD]
    simp [hij]

/-- Marking an empty cell shortens the empty-cell list by one. -/
theorem length_celdas_vacias_set (t : Board) (j : Nat) (p : Player)
    (hj : j ∈ celdas_vacias t) :
    (celdas_vacias (t.set j (some p))).length = (celdas_vacias t).length - 1 := by
  rw [celdas_vacias_set t j p hj, List.length_erase_of_mem hj]

/-- The kernel comparison `sle` decides `≤` on scores. -/
theorem sle_iff (a b : Score) : sle a b = true ↔ a ≤ b := by
  induction a using WithBot.recBotCoe with
  | bot => exact iff_of_true rfl bot_le
  | coe a' =>
    induction a' using WithTop.recTopCoe with
    | top =>
      induction b using WithBot.recBotCoe with
      | bot => exact iff_of_false Bool.false_ne_true (WithBot.not_coe_le_bot _)
      | coe b' =>
        rw [WithBot.coe_le_coe]
        induction b' using WithTop.recTopCoe with
        | top => exact iff_of_true rfl le_rfl
        | coe y => exact iff_of_false Bool.false_ne_true (by simp)
    | coe x =>
      induction b using WithBot.recBotCoe with
      | bot => exact iff_of_false Bool.false_ne_true (WithBot.not_coe_le_bot _)
      | coe b' =>
        rw [WithBot.coe_le_coe]
        induction b' using WithTop.recTopCoe with
        | top => exact iff_of_true rfl le_top
        | coe y =>
          constructor
          · intro h
            exact WithTop.coe_le_coe.mpr (of_decide_eq_true h)
          · intro h
            exact decide_eq_true (WithTop.coe_le_coe.mp h)

/-- `smax` is `max`. -/
theorem smax_eq (a b : Score) : smax a b = max a b := by
  unfold smax
  by_cases h : sle a b = true
  · rw [if_pos h, max_eq_right ((sle_iff a b).mp h)]
  · rw [if_neg h, max_eq_left (le_of_not_le (fun hc => h ((sle_iff a b).mpr hc)))]

/-- `smin` is `min`. -/
theorem smin_eq (a b : Score) : smin a b = min a b := by
  unfold smin
  by_cases h : sle a b = true
  · rw [if_pos h, min_eq_left ((sle_iff a b).mp h)]
  · rw [if_neg h, min_eq_right (le_of_not_le (fun hc => h ((sle_iff a b).mpr hc)))]

/-- One step of the mirrored maximizing loop. -/
theorem maxLoopR_cons (f : Nat → Score → Score → Score) (beta : Score)
    (e i : Nat) (resto : List Nat) :
    maxLoopR f beta e (i :: resto) = maxStep f beta e i (maxLoopR f beta e resto) :=
  rfl

/-- One step of the mirrored minimizing loop. -/
theorem minLoopR_cons (f : Nat → Score → Score → Score) (alfa : Score)
    (e i : Nat) (resto : List Nat) :
    minLoopR f alfa e (i :: resto) = minStep f alfa e i (minLoopR f alfa e resto) :=
  rfl

/-- The mirrored maximizing loop is the plain loop over the unoccupied
cells of the skip mask. -/
theorem maxLoopR_eq (f : Nat → Score → Score → Score) (beta : Score) (e : Nat) :
    ∀ (l : List Nat) (alfa mejor : Score),
      maxLoopR f beta e l alfa mejor =
        maxLoop f beta (l.filter (fun j => ! e.testBit j)) alfa mejor := by
  intro l
  induction l with
  | nil => intro alfa mejor; rfl
  | cons i resto ih =>
    intro alfa mejor
    rw [maxLoopR_cons]
    simp only [maxStep]
    by_cases he : Nat.testBit e i = true
    · have hfc : List.filter (fun j => ! e.testBit j) (i :: resto) =
          List.filter (fun j => ! e.testBit j) resto := by
        rw [List.filter_cons]
        simp [he]
      rw [if_pos he, hfc]
      exact ih alfa mejor
    · have he' : Nat.testBit e i = false := Bool.eq_false_iff.mpr he
      have hfc : List.filter (fun j => ! e.testBit j) (i :: resto) =
          i :: List.filter (fun j => ! e.testBit j) resto := by
        rw [List.filter_cons]
        simp [he']
      rw [if_neg he, hfc]
      simp only [maxLoop, smax_eq]
      by_cases hb : beta ≤ max alfa (max mejor (f i alfa beta))
      · rw [if_pos ((sle_iff _ _).mpr hb), if_pos hb]
      · rw [if_neg (fun hc => hb ((sle_iff _ _).mp hc)), if_neg hb]
        exact ih _ _

/-- The mirrored minimizing loop is the plain loop over the unoccupied
cells of the skip mask. -/
theorem minLoopR_eq (f : Nat → Score → Score → Score) (alfa : Score) (e : Nat) :
    ∀ (l : List Nat) (beta mejor : Score),
      minLoopR f alfa e l beta mejor =
        minLoop f alfa (l.filter (fun j => ! e.testBit j)) beta mejor := by
  intro l
  induction l with
  | nil => intro beta mejor; rfl
  | cons i resto ih =>
    intro beta mejor
    rw [minLoopR_cons]
    simp only [minStep]
    by_cases he : Nat.testBit e i = true
    · have hfc : List.filter (fun j => ! e.testBit j) (i :: resto) =
          List.filter (fun j => ! e.testBit j) resto := by
        rw [List.filter_cons]
        simp [he]
      rw [if_pos he, hfc]
      exact ih beta mejor
    · have he' : Nat.testBit e i = false := Bool.eq_false_iff.mpr he
      have hfc : List.filter (fun j => ! e.testBit j) (i :: resto) =
          i :: List.filter (fun j => ! e.testBit j) resto := by
        rw [List.filter_cons]
        simp [he']
      rw [if_neg he, hfc]
      simp only [minLoop, smin_eq]
      by_cases hb : min beta (min mejor (f i alfa beta)) ≤ alfa
      · rw [if_pos ((sle_iff _ _).mpr hb), if_pos hb]
      · rw [if_neg (fun hc => hb ((sle_iff _ _).mp hc)), if_neg hb]
        exact ih _ _

/-- Two maximizing loops agree when their cell evaluations agree on the
cells of the list. -/
theorem maxLoop_congr (f g : Nat → Score → Score → Score) (beta : Score) :
    ∀ l : List Nat, (∀ i ∈ l, ∀ a b, f i a b = g i a b) →
      ∀ alfa mejor, maxLoop f beta l alfa mejor = maxLoop g beta l alfa mejor := by
  intro l
  induction l with
  | nil => intro _ alfa mejor; rfl
  | cons i resto ih =>
    intro h alfa mejor
    simp only [maxLoop]
    rw [h i (List.mem_cons_self i resto) alfa beta]
    by_cases hb : beta ≤ max alfa (max mejor (g i alfa beta))
    · rw [if_pos hb, if_pos hb]
    · rw [if_neg hb, if_neg hb]
      exact ih (fun j hj a b => h j (List.mem_cons_of_mem _ hj) a b) _ _

/-- Two minimizing loops agree when their cell evaluations agree on the
cells of the list. -/
theorem minLoop_congr (f g : Nat → Score → Score → Score) (alfa : Score) :
    ∀ l : List Nat, (∀ i ∈ l, ∀ a b, f i a b = g i a b) →
      ∀ beta mejor, minLoop f alfa l beta mejor = minLoop g alfa l beta mejor := by
  intro l
  induction l with
  | nil => intro _ beta mejor; rfl
  | cons i resto ih =>
    intro h beta mejor
    simp only [minLoop]
    rw [h i (List.mem_cons_self i resto) alfa beta]
    by_cases hb : min beta (min mejor (g i alfa beta)) ≤ alfa
    · rw [if_pos hb, if_pos hb]
    · rw [if_neg hb, if_neg hb]
      exact ih (fun j hj a b => h j (List.mem_cons_of_mem _ hj) a b) _ _

/-- The mirrored search agrees with the board search on every 9-cell board,
for every gas, side, depth and window. -/
theorem minimaxR_eq :
    ∀ (gas : Nat) (t : Board), t.length = 9 →
      ∀ (es : Bool) (prof : ℤ) (alfa beta : Score),
        minimaxR gas (mascara t Player.X) (mascara t Player.O) es prof alfa beta =
          minimaxG gas t es prof alfa beta := by
  intro gas
  induction gas with
  | zero =>
    intro t hlen es prof alfa beta
    have hx : mascara t Player.X < 512 := by
      have h := mascara_lt t Player.X
      rw [hlen] at h
      exact h
    have ho : mascara t Player.O < 512 := by
      have h := mascara_lt t Player.O
      rw [hlen] at h
      exact h
    show minimaxRB (mascara t Player.X) (mascara t Player.O) prof = _
    unfold minimaxRB
    rw [rapidoGanador_eq _ _ hx ho, ganadorBits_mascara, minimaxG]
    rcases hvg : verificar_ganador t with ⟨p, l⟩ | _ | _
    · rw [(verificar_gana_iff t p l).mp hvg]
      cases p <;> rfl
    · rw [(ganador_en_none_iff t).mpr ((verificar_empate_iff t).mp hvg).1]
      rfl
    · rw [(ganador_en_none_iff t).mpr ((verificar_sigue_iff t).mp hvg).1]
      rcases hvac : celdas_vacias t with _ | ⟨v0, resto⟩
      · rfl
      · rfl
  | succ g ih =>
    intro t hlen es prof alfa beta
    have hx : mascara t Player.X < 512 := by
      have h := mascara_lt t Player.X
      rw [hlen] at h
      exact h
    have ho : mascara t Player.O < 512 := by
      have h := mascara_lt t Player.O
      rw [hlen] at h
      exact h
    show minimaxRF (minimaxR g) (mascara t Player.X) (mascara t Player.O)
        es prof alfa beta = _
    unfold minimaxRF
    rw [rapidoGanador_eq _ _ hx ho, ganadorBits_mascara, minimaxG]
    rcases hvg : verificar_ganador t with ⟨p, l⟩ | _ | _
    · rw [(verificar_gana_iff t p l).mp hvg]
      cases p <;> rfl
    · obtain ⟨hnl, hfull⟩ := (verificar_empate_iff t).mp hvg
      rw [(ganador_en_none_iff t).mpr hnl,
        (mascara_or_eq_511_iff t hlen).mpr hfull]
      rfl
    · obtain ⟨hnl, hnfull⟩ := (verificar_sigue_iff t).mp hvg
      rw [(ganador_en_none_iff t).mpr hnl]
      have hne : mascara t Player.X ||| mascara t Player.O ≠ 511 := by
        intro h
        have hfull := (mascara_or_eq_511_iff t hlen).mp h
        rw [hnfull] at hfull
        exact Bool.false_ne_true hfull
      have hbeq : ((mascara t Player.X ||| mascara t Player.O) == 511) = false :=
        Bool.eq_false_iff.mpr (fun hb => hne (eq_of_beq hb))
      rw [hbeq, if_neg Bool.false_ne_true]
      rcases hvac : celdas_vacias t with _ | ⟨v0, resto⟩
      · exfalso
        have hfull := (celdas_vacias_nil_iff t).mp hvac
        rw [hnfull] at hfull
        exact Bool.false_ne_true hfull
      · refine if_congr Iff.rfl ?_ ?_
        · rw [maxLoopR_eq,
            show CELDAS.filter
                (fun j => ! (mascara t Player.X ||| mascara t Player.O).testBit j) =
              vaciasR (mascara t Player.X ||| mascara t Player.O) from rfl,
            vaciasR_eq t hlen, hvac]
          apply maxLoop_congr
          intro j hj a b
          have hjc : j ∈ celdas_vacias t := by rw [hvac]; exact hj
          obtain ⟨hjl, hje⟩ := (mem_celdas_vacias t j).mp hjc
          rw [← mascara_set_self t j Player.O hjl hje,
            ← mascara_set_other t j Player.O Player.X (by decide) hje]
          exact ih (t.set j (some Player.O)) (by rw [List.length_set, hlen])
            false (prof + 1) a b
        · rw [minLoopR_eq,
            show CELDAS.filter
                (fun j => ! (mascara t Player.X ||| mascara t Player.O).testBit j) =
              vaciasR (mascara t Player.X ||| mascara t Player.O) from rfl,
            vaciasR_eq t hlen, hvac]
          apply minLoop_congr
          intro j hj a b
          have hjc : j ∈ celdas_vacias t := by rw [hvac]; exact hj
          obtain ⟨hjl, hje⟩ := (mem_celdas_vacias t j).mp hjc
          rw [← mascara_set_self t j Player.X hjl hje,
            ← mascara_set_other t j Player.X Player.O (by decide) hje]
          exact ih (t.set j (some Player.X)) (by rw [List.length_set, hlen])
            true (prof + 1) a b

/-- The mirrored best-move driver agrees with `mejor_jugada` on every
9-cell board. -/
theorem mejor_jugadaR_eq (t : Board) (hlen : t.length = 9) :
    mejor_jugadaR (mascara t Player.X) (mascara t Player.O) = mejor_jugada t := by
  unfold mejor_jugadaR mejor_jugada
  rw [vaciasR_eq t hlen]
  apply mjLoop_congr
  intro i hi
  obtain ⟨hil, hie⟩ := (mem_celdas_vacias t i).mp hi
  have hlen' : (t.set i (some Player.O)).length = 9 := by
    rw [List.length_set, hlen]
  have hgas : (celdas_vacias t).length - 1 =
      (celdas_vacias (t.set i (some Player.O))).length := by
    rw [length_celdas_vacias_set t i Player.O hi]
  unfold puntaje_opcion minimax
  rw [hgas, ← mascara_set_self t i Player.O hil hie,
    ← mascara_set_other t i Player.O Player.X (by decide) hie]
  exact minimaxR_eq _ (t.set i (some Player.O)) hlen' false 0 ⊥ ⊤

/-- C6: Forced block — on the board `[X, X, None, None, O, None, None,
None, None]` (human holds cells 0 and 1, computer holds cell 4)
`mejor_jugada` returns index `2`, blocking the human's completion of the
top row. -/
theorem bloqueo_forzado :
    mejor_jugada [some Player.X, some Player.X, none, none, some Player.O,
      none, none, none, none] = 2 := by
  rw [← mejor_jugadaR_eq [some Player.X, some Player.X, none, none,
    some Player.O, none, none, none, none] rfl]
  decide

/-- A null-window `(0, 1)` run that answers `0` certifies that the
unpruned value is at most `0`. -/
theorem np_le_de_cert (gas : Nat) (t : Board) (es : Bool) (prof : ℤ)
    (h : minimaxG gas t es prof ((0 : ℤ) : Score) ((1 : ℤ) : Score) =
      ((0 : ℤ) : Score)) :
    minimaxNPG gas t es prof ≤ ((0 : ℤ) : Score) := by
  have hc := minimaxG_clamp gas t es prof ((0 : ℤ) : Score) ((1 : ℤ) : Score)
  rw [h, max_self] at hc
  have h01 : ((0 : ℤ) : Score) ≤ ((1 : ℤ) : Score) :=
    WithBot.coe_le_coe.mpr (WithTop.coe_le_coe.mpr (by norm_num))
  rw [min_eq_right h01] at hc
  rcases min_eq_iff.mp hc.symm with ⟨h1, -⟩ | ⟨h2, -⟩
  · exfalso
    have h10 : (1 : ℤ) = 0 := WithTop.coe_injective (WithBot.coe_injective h1)
    norm_num at h10
  · calc minimaxNPG gas t es prof
        ≤ max ((0 : ℤ) : Score) (minimaxNPG gas t es prof) := le_max_right _ _
      _ = ((0 : ℤ) : Score) := h2

/-- A null-window `(-1, 0)` run that answers `0` certifies that the
unpruned value is at least `0`. -/
theorem np_ge_de_cert (gas : Nat) (t : Board) (es : Bool) (prof : ℤ)
    (h : minimaxG gas t es prof ((-1 : ℤ) : Score) ((0 : ℤ) : Score) =
      ((0 : ℤ) : Score)) :
    ((0 : ℤ) : Score) ≤ minimaxNPG gas t es prof := by
  have hc := minimaxG_clamp gas t es prof ((-1 : ℤ) : Score) ((0 : ℤ) : Score)
  rw [h] at hc
  have hm10 : ((-1 : ℤ) : Score) ≤ ((0 : ℤ) : Score) :=
    WithBot.coe_le_coe.mpr (WithTop.coe_le_coe.mpr (by norm_num))
  rw [max_eq_right hm10, min_self] at hc
  have hle : ((0 : ℤ) : Score) ≤
      max ((-1 : ℤ) : Score) (minimaxNPG gas t es prof) := by
    rcases min_eq_iff.mp hc.symm with ⟨-, hl⟩ | ⟨heq, -⟩
    · exact hl
    · exact heq.ge
  rcases le_max_iff.mp hle with h' | h'
  · exfalso
    have h0m : (0 : ℤ) ≤ -1 := WithTop.coe_le_coe.mp (WithBot.coe_le_coe.mp h')
    norm_num at h0m
  · exact h'

/-- Transfer of a mirrored `(0, 1)` certificate to the candidate score of
cell `j`. -/
theorem cert_puntaje_le (t : Board) (j : Nat)
    (hlen : (t.set j (some Player.O)).length = 9)
    (h : minimaxR (celdas_vacias (t.set j (some Player.O))).length
        (mascara (t.set j (some Player.O)) Player.X)
        (mascara (t.set j (some Player.O)) Player.O) false 0
        ((0 : ℤ) : Score) ((1 : ℤ) : Score) = ((0 : ℤ) : Score)) :
    puntaje_opcion t j ≤ ((0 : ℤ) : Score) := by
  rw [minimaxR_eq _ (t.set j (some Player.O)) hlen false 0
    ((0 : ℤ) : Score) ((1 : ℤ) : Score)] at h
  unfold puntaje_opcion minimax
  rw [minimaxG_sin_poda]
  exact np_le_de_cert _ _ false 0 h

/-- Transfer of a mirrored `(-1, 0)` certificate to the candidate score of
cell `j`. -/
theorem cert_puntaje_ge (t : Board) (j : Nat)
    (hlen : (t.set j (some Player.O)).length = 9)
    (h : minimaxR (celdas_vacias (t.set j (some Player.O))).length
        (mascara (t.set j (some Player.O)) Player.X)
        (mascara (t.set j (some Player.O)) Player.O) false 0
        ((-1 : ℤ) : Score) ((0 : ℤ) : Score) = ((0 : ℤ) : Score)) :
    ((0 : ℤ) : Score) ≤ puntaje_opcion t j := by
  rw [minimaxR_eq _ (t.set j (some Player.O)) hlen false 0
    ((-1 : ℤ) : Score) ((0 : ℤ) : Score)] at h
  unfold puntaje_opcion minimax
  rw [minimaxG_sin_poda]
  exact np_ge_de_cert _ _ false 0 h

/-- C7: Tie-break by lowest index — on any board with an empty cell the
driver returns a cell of maximal score that is strictly better than every
lower-indexed empty cell (so among equally-scored optimal moves the lowest
index wins); on the all-empty board it returns cell `0`, which is optimal:
no empty cell scores better than cell `0`. -/
theorem desempate_menor_indice :
    (∀ t : Board, celdas_vacias t ≠ [] →
      ∃ i ∈ celdas_vacias t, mejor_jugada t = (i : Int) ∧
        (∀ j ∈ celdas_vacias t, puntaje_opcion t j ≤ puntaje_opcion t i) ∧
        (∀ j ∈ celdas_vacias t, j < i →
          puntaje_opcion t j < puntaje_opcion t i))
    ∧ mejor_jugada tablero_vacio = 0
    ∧ ∀ j ∈ celdas_vacias tablero_vacio,
        puntaje_opcion tablero_vacio j ≤ puntaje_opcion tablero_vacio 0 := by
  have hv : celdas_vacias tablero_vacio = [0, 1, 2, 3, 4, 5, 6, 7, 8] := by
    decide
  have hge0 : ((0 : ℤ) : Score) ≤ puntaje_opcion tablero_vacio 0 :=
    cert_puntaje_ge tablero_vacio 0 rfl (by decide)
  have hle1 : puntaje_opcion tablero_vacio 1 ≤ ((0 : ℤ) : Score) :=
    cert_puntaje_le tablero_vacio 1 rfl (by decide)
  have hle2 : puntaje_opcion tablero_vacio 2 ≤ ((0 : ℤ) : Score) :=
    cert_puntaje_le tablero_vacio 2 rfl (by decide)
  have hle3 : puntaje_opcion tablero_vacio 3 ≤ ((0 : ℤ) : Score) :=
    cert_puntaje_le tablero_vacio 3 rfl (by decide)
  have hle4 : puntaje_opcion tablero_vacio 4 ≤ ((0 : ℤ) : Score) :=
    cert_puntaje_le tablero_vacio 4 rfl (by decide)
  have hle5 : puntaje_opcion tablero_vacio 5 ≤ ((0 : ℤ) : Score) :=
    cert_puntaje_le tablero_vacio 5 rfl (by decide)
  have hle6 : puntaje_opcion tablero_vacio 6 ≤ ((0 : ℤ) : Score) :=
    cert_puntaje_le tablero_vacio 6 rfl (by decide)
  have hle7 : puntaje_opcion tablero_vacio 7 ≤ ((0 : ℤ) : Score) :=
    cert_puntaje_le tablero_vacio 7 rfl (by decide)
  have hle8 : puntaje_opcion tablero_vacio 8 ≤ ((0 : ℤ) : Score) :=
    cert_puntaje_le tablero_vacio 8 rfl (by decide)
  have hopt : ∀ j ∈ celdas_vacias tablero_vacio,
      puntaje_opcion tablero_vacio j ≤ puntaje_opcion tablero_vacio 0 := by
    intro j hj
    rw [hv] at hj
    fin_cases hj
    · exact le_rfl
    · exact le_trans hle1 hge0
    · exact le_trans hle2 hge0
    · exact le_trans hle3 hge0
    · exact le_trans hle4 hge0
    · exact le_trans hle5 hge0
    · exact le_trans hle6 hge0
    · exact le_trans hle7 hge0
    · exact le_trans hle8 hge0
  refine ⟨?_, ?_, hopt⟩
  · intro t hne
    rcases mejor_jugada_caracterizada t with ⟨hnil, -⟩ | h
    · exact absurd hnil hne
    · exact h
  · rcases mejor_jugada_caracterizada tablero_vacio with
      ⟨hnil, -⟩ | ⟨i, hi, heq, hmax, hstr⟩
    · rw [hv] at hnil
      exact absurd hnil (by simp)
    · have hi0 : i = 0 := by
        by_contra hne
        have hpos : 0 < i := Nat.pos_of_ne_zero hne
        have h0m : (0 : Nat) ∈ celdas_vacias tablero_vacio := by
          rw [hv]
          simp
        have hlt := hstr 0 h0m hpos
        have hle := hopt i hi
        exact absurd (lt_of_lt_of_le hlt hle) (lt_irrefl _)
      rw [hi0] at heq
      simpa using heq

/-- Witness for C7: the all-empty board has empty cells, and the returned
cell is maximal and strictly beats every lower index. -/
theorem desempate_menor_indice_testigo :
    celdas_vacias tablero_vacio ≠ [] ∧
    ∃ i ∈ celdas_vacias tablero_vacio,
      mejor_jugada tablero_vacio = (i : Int) ∧
      (∀ j ∈ celdas_vacias tablero_vacio,
        puntaje_opcion tablero_vacio j ≤ puntaje_opcion tablero_vacio i) ∧
      (∀ j ∈ celdas_vacias tablero_vacio, j < i →
        puntaje_opcion tablero_vacio j < puntaje_opcion tablero_vacio i) :=
  ⟨by decide, desempate_menor_indice.1 tablero_vacio (by decide)⟩

/-- The empty-cell list is never longer than the board. -/
theorem celdas_vacias_length_le (t : Board) :
    (celdas_vacias t).length ≤ t.length := by
  unfold celdas_vacias
  calc (List.filter (fun i => (t.getD i none).isNone)
          (List.range t.length)).length
      ≤ (List.range t.length).length := List.length_filter_le _ _
    _ = t.length := List.length_range t.length

/-- The unpruned maximizing fold is nonnegative exactly when the seed or
some explored cell is. -/
theorem npMaxLoop_nonneg_iff (f : Nat → Score) :
    ∀ (l : List Nat) (m : Score),
      ((0 : ℤ) : Score) ≤ npMaxLoop f l m ↔
        ((0 : ℤ) : Score) ≤ m ∨ ∃ i ∈ l, ((0 : ℤ) : Score) ≤ f i := by
  intro l
  induction l with
  | nil => intro m; simp [npMaxLoop]
  | cons i resto ih =>
    intro m
    simp only [npMaxLoop]
    rw [ih (max m (f i))]
    constructor
    · rintro (h | ⟨j, hj, hfj⟩)
      · rcases le_max_iff.mp h with h' | h'
        · exact Or.inl h'
        · exact Or.inr ⟨i, List.mem_cons_self i resto, h'⟩
      · exact Or.inr ⟨j, List.mem_cons_of_mem _ hj, hfj⟩
    · rintro (h | ⟨j, hj, hfj⟩)
      · exact Or.inl (le_max_iff.mpr (Or.inl h))
      · rcases List.mem_cons.mp hj with rfl | hj'
        · exact Or.inl (le_max_iff.mpr (Or.inr hfj))
        · exact Or.inr ⟨j, hj', hfj⟩

/-- The unpruned minimizing fold is nonnegative exactly when the seed and
every explored cell are. -/
theorem npMinLoop_nonneg_iff (f : Nat → Score) :
    ∀ (l : List Nat) (m : Score),
      ((0 : ℤ) : Score) ≤ npMinLoop f l m ↔
        ((0 : ℤ) : Score) ≤ m ∧ ∀ i ∈ l, ((0 : ℤ) : Score) ≤ f i := by
  intro l
  induction l with
  | nil => intro m; simp [npMinLoop]
  | cons i resto ih =>
    intro m
    simp only [npMinLoop]
    rw [ih (min m (f i))]
    constructor
    · rintro ⟨hm, hall⟩
      obtain ⟨h1, h2⟩ := le_min_iff.mp hm
      refine ⟨h1, ?_⟩
      intro j hj
      rcases List.mem_cons.mp hj with rfl | hj'
      · exact h2
      · exact hall j hj'
    · rintro ⟨hm, hall⟩
      refine ⟨le_min_iff.mpr ⟨hm, hall i (List.mem_cons_self i resto)⟩, ?_⟩
      intro j hj
      exact hall j (List.mem_cons_of_mem _ hj)

/-- Whether the unpruned value is nonnegative does not depend on the root
depth, as long as depths stay within the score margin (`depth + gas ≤ 9`,
so a win score `10 - depth` stays positive and a loss score `depth - 10`
stays negative). -/
theorem minimaxNPG_nonneg_shift :
    ∀ (gas : Nat) (t : Board) (es : Bool) (d d' : ℤ),
      0 ≤ d → 0 ≤ d' → d + (gas : ℤ) ≤ 9 → d' + (gas : ℤ) ≤ 9 →
      (((0 : ℤ) : Score) ≤ minimaxNPG gas t es d ↔
        ((0 : ℤ) : Score) ≤ minimaxNPG gas t es d') := by
  intro gas
  induction gas with
  | zero =>
    intro t es d d' hd hd' hdg hdg'
    rw [minimaxNPG, minimaxNPG]
    rcases hv : verificar_ganador t with ⟨p, l⟩ | _ | _
    · cases p
      · exact iff_of_false
          (fun hc => absurd
            (WithTop.coe_le_coe.mp (WithBot.coe_le_coe.mp hc)) (by omega))
          (fun hc => absurd
            (WithTop.coe_le_coe.mp (WithBot.coe_le_coe.mp hc)) (by omega))
      · exact iff_of_true
          (WithBot.coe_le_coe.mpr (WithTop.coe_le_coe.mpr (by omega)))
          (WithBot.coe_le_coe.mpr (WithTop.coe_le_coe.mpr (by omega)))
    · exact iff_of_true le_rfl le_rfl
    · rcases hvac : celdas_vacias t with _ | ⟨v0, resto⟩
      · exact iff_of_true le_rfl le_rfl
      · exact iff_of_true le_rfl le_rfl
  | succ g ih =>
    intro t es d d' hd hd' hdg hdg'
    rw [minimaxNPG, minimaxNPG]
    rcases hv : verificar_ganador t with ⟨p, l⟩ | _ | _
    · cases p
      · exact iff_of_false
          (fun hc => absurd
            (WithTop.coe_le_coe.mp (WithBot.coe_le_coe.mp hc)) (by omega))
          (fun hc => absurd
            (WithTop.coe_le_coe.mp (WithBot.coe_le_coe.mp hc)) (by omega))
      · exact iff_of_true
          (WithBot.coe_le_coe.mpr (WithTop.coe_le_coe.mpr (by omega)))
          (WithBot.coe_le_coe.mpr (WithTop.coe_le_coe.mpr (by omega)))
    · exact iff_of_true le_rfl le_rfl
    · rcases hvac : celdas_vacias t with _ | ⟨v0, resto⟩
      · exact iff_of_true le_rfl le_rfl
      · rcases es
        · show ((0 : ℤ) : Score) ≤
              npMinLoop (fun j =>
                minimaxNPG g (t.set j (some Player.X)) true (d + 1))
                (v0 :: resto) ⊤ ↔
            ((0 : ℤ) : Score) ≤
              npMinLoop (fun j =>
                minimaxNPG g (t.set j (some Player.X)) true (d' + 1))
                (v0 :: resto) ⊤
          rw [npMinLoop_nonneg_iff, npMinLoop_nonneg_iff]
          refine and_congr Iff.rfl ?_
          refine forall_congr' (fun i => imp_congr_right (fun _ => ?_))
          exact ih (t.set i (some Player.X)) true (d + 1) (d' + 1)
            (by omega) (by omega) (by omega) (by omega)
        · show ((0 : ℤ) : Score) ≤
              npMaxLoop (fun j =>
                minimaxNPG g (t.set j (some Player.O)) false (d + 1))
                (v0 :: resto) ⊥ ↔
            ((0 : ℤ) : Score) ≤
              npMaxLoop (fun j =>
                minimaxNPG g (t.set j (some Player.O)) false (d' + 1))
                (v0 :: resto) ⊥
          rw [npMaxLoop_nonneg_iff, npMaxLoop_nonneg_iff]
          refine or_congr Iff.rfl ?_
          refine exists_congr (fun i => and_congr_right (fun _ => ?_))
          exact ih (t.set i (some Player.O)) false (d + 1) (d' + 1)
            (by omega) (by omega) (by omega) (by omega)

/-- Backward induction: if the unpruned value of the position (from the
computer's perspective, with the side to move matching the turn) is
nonnegative, then with the computer always playing `mejor_jugada` no
reachable terminal position is a human win. -/
theorem ia_no_pierde_de_valor :
    ∀ (fuel : Nat) (t : Board) (turno : Bool), t.length = 9 →
      (celdas_vacias t).length ≤ fuel →
      ((0 : ℤ) : Score) ≤ minimaxNPG (celdas_vacias t).length t (!turno) 0 →
      ia_no_pierde fuel t turno = true := by
  intro fuel
  induction fuel with
  | zero =>
    intro t turno hlen hle hval
    rw [ia_no_pierde]
    rcases hv : verificar_ganador t with ⟨p, l⟩ | _ | _
    · cases p
      · rw [minimaxNPG, hv] at hval
        exact absurd
          (WithTop.coe_le_coe.mp (WithBot.coe_le_coe.mp hval)) (by omega)
      · rfl
    · rfl
    · obtain ⟨-, hnf⟩ := (verificar_sigue_iff t).mp hv
      rcases hvac : celdas_vacias t with _ | ⟨v0, resto⟩
      · have hfull := (celdas_vacias_nil_iff t).mp hvac
        rw [hnf] at hfull
        exact absurd hfull Bool.false_ne_true
      · rw [hvac] at hle
        simp at hle
  | succ f ihf =>
    intro t turno hlen hle hval
    rw [ia_no_pierde]
    rcases hv : verificar_ganador t with ⟨p, l⟩ | _ | _
    · cases p
      · rw [minimaxNPG, hv] at hval
        exact absurd
          (WithTop.coe_le_coe.mp (WithBot.coe_le_coe.mp hval)) (by omega)
      · rfl
    · rfl
    · obtain ⟨-, hnf⟩ := (verificar_sigue_iff t).mp hv
      have h9 : (celdas_vacias t).length ≤ 9 := by
        have h := celdas_vacias_length_le t
        rw [hlen] at h
        exact h
      rcases turno
      · show ia_no_pierde f (t.set (mejor_jugada t).toNat (some Player.O))
            true = true
        rcases hvac : celdas_vacias t with _ | ⟨v0, resto⟩
        · have hfull := (celdas_vacias_nil_iff t).mp hvac
          rw [hnf] at hfull
          exact absurd hfull Bool.false_ne_true
        · rw [minimaxNPG, hv, hvac, List.length_cons] at hval
          have hval' : ((0 : ℤ) : Score) ≤
              npMaxLoop (fun j =>
                minimaxNPG resto.length (t.set j (some Player.O)) false (0 + 1))
                (v0 :: resto) ⊥ := hval
          rw [npMaxLoop_nonneg_iff] at hval'
          rw [hvac, List.length_cons] at h9 hle
          rcases hval' with hbot | ⟨i, hi', hfi⟩
          · exact absurd (le_bot_iff.mp hbot) (WithBot.coe_ne_bot)
          · rcases mejor_jugada_caracterizada t with ⟨hnil, -⟩ |
              ⟨i₀, hi₀, heq, hmax, -⟩
            · rw [hvac] at hnil
              exact absurd hnil (List.cons_ne_nil v0 resto)
            · have hi_mem : i ∈ celdas_vacias t := by
                rw [hvac]
                exact hi'
              have hglen : (celdas_vacias (t.set i (some Player.O))).length =
                  resto.length := by
                rw [length_celdas_vacias_set t i Player.O hi_mem, hvac]
                rfl
              have hpi : ((0 : ℤ) : Score) ≤ puntaje_opcion t i := by
                have hshift := (minimaxNPG_nonneg_shift resto.length
                  (t.set i (some Player.O)) false (0 + 1) 0
                  (by omega) (by omega) (by omega) (by omega)).mp hfi
                unfold puntaje_opcion minimax
                rw [minimaxG_sin_poda, hglen]
                exact hshift
              have hpi₀ : ((0 : ℤ) : Score) ≤ puntaje_opcion t i₀ :=
                le_trans hpi (hmax i hi_mem)
              have hval₀ : ((0 : ℤ) : Score) ≤
                  minimaxNPG (celdas_vacias (t.set i₀ (some Player.O))).length
                    (t.set i₀ (some Player.O)) false 0 := by
                unfold puntaje_opcion minimax at hpi₀
                rw [minimaxG_sin_poda] at hpi₀
                exact hpi₀
              rw [heq, Int.toNat_natCast]
              apply ihf (t.set i₀ (some Player.O)) true
              · rw [List.length_set, hlen]
              · rw [length_celdas_vacias_set t i₀ Player.O hi₀, hvac,
                  List.length_cons]
                omega
              · exact hval₀
      · show (celdas_vacias t).all
            (fun i => ia_no_pierde f (t.set i (some Player.X)) false) = true
        rcases hvac : celdas_vacias t with _ | ⟨v0, resto⟩
        · rfl
        · rw [minimaxNPG, hv, hvac, List.length_cons] at hval
          have hval' : ((0 : ℤ) : Score) ≤
              npMinLoop (fun j =>
                minimaxNPG resto.length (t.set j (some Player.X)) true (0 + 1))
                (v0 :: resto) ⊤ := hval
          rw [npMinLoop_nonneg_iff] at hval'
          obtain ⟨-, hall⟩ := hval'
          rw [hvac, List.length_cons] at h9 hle
          rw [List.all_eq_true]
          intro i hi
          have hi_mem : i ∈ celdas_vacias t := by
            rw [hvac]
            exact hi
          have hglen : (celdas_vacias (t.set i (some Player.X))).length =
              resto.length := by
            rw [length_celdas_vacias_set t i Player.X hi_mem, hvac]
            rfl
          have hshift := (minimaxNPG_nonneg_shift resto.length
            (t.set i (some Player.X)) true (0 + 1) 0
            (by omega) (by omega) (by omega) (by omega)).mp (hall i hi)
          apply ihf (t.set i (some Player.X)) false
          · rw [List.length_set, hlen]
          · rw [length_celdas_vacias_set t i Player.X hi_mem, hvac,
              List.length_cons]
            omega
          · rw [hglen]
            exact hshift

/-- C1: Optimality — from the empty board, whether the human or the
computer moves first, every game in which the computer always plays
`mejor_jugada` and the human plays any empty cell ends, as classified by
`verificar_ganador`, in a computer win or a draw: never a human win. -/
theorem ia_nunca_pierde :
    ia_no_pierde 9 tablero_vacio true = true ∧
      ia_no_pierde 9 tablero_vacio false = true := by
  have hlen : tablero_vacio.length = 9 := rfl
  have hv9 : (celdas_vacias tablero_vacio).length = 9 := by decide
  constructor
  · apply ia_no_pierde_de_valor 9 tablero_vacio true hlen (le_of_eq hv9)
    have hcert : minimaxG 9 tablero_vacio false 0
        ((-1 : ℤ) : Score) ((0 : ℤ) : Score) = ((0 : ℤ) : Score) := by
      rw [← minimaxR_eq 9 tablero_vacio rfl false 0
        ((-1 : ℤ) : Score) ((0 : ℤ) : Score)]
      decide
    have h := np_ge_de_cert 9 tablero_vacio false 0 hcert
    rw [hv9]
    exact h
  · apply ia_no_pierde_de_valor 9 tablero_vacio false hlen (le_of_eq hv9)
    have hcert : minimaxG 9 tablero_vacio true 0
        ((-1 : ℤ) : Score) ((0 : ℤ) : Score) = ((0 : ℤ) : Score) := by
      rw [← minimaxR_eq 9 tablero_vacio rfl true 0
        ((-1 : ℤ) : Score) ((0 : ℤ) : Score)]
      decide
    have h := np_ge_de_cert 9 tablero_vacio true 0 hcert
    rw [hv9]
    exact h
